import Mathlib

/-!
Verification of the field-sensitive pruned-liveness analysis
(`lib/SIL/Utils/FieldSensitivePrunedLiveness.cpp`).

The SIL data structures are shallowly embedded: blocks and instructions are
natural-number identifiers, SIL types are a small inductive capturing exactly
the structure `TypeSubElementCount` inspects, projection chains are lists of
projection descriptions, and the per-(block, bit) liveness store is a total
function updated pointwise.  Each definition mirrors the corresponding C++
function; oracle queries that the C++ resolves through the surrounding IR
(`isDef`, `isInterestingUser`, predecessor/successor lists, ...) are passed in
as function parameters, exactly as the analysis consumes them.
-/

namespace FSPL

/-! ## Leaf model: `TypeSubElementCount`

`SILType` captures the four shapes distinguished by the constructor
`TypeSubElementCount::TypeSubElementCount`:
* a tuple type (checked first via `type.getAs<TupleType>()`);
* a struct; `getFullyReferenceableStruct` returns it only when its storage is
  fully referenceable (`referenceable = true`), and `isValueTypeWithDeinit`
  is the `hasDeinit` flag;
* an enum, whose cases either carry a payload type (`some t`) or none;
* anything else (`prim`), which counts as a single element.
-/

inductive SILType where
  | prim : SILType
  | tupleTy : List SILType → SILType
  | structTy : List SILType → Bool → Bool → SILType
  | enumTy : List (Option SILType) → SILType

mutual

/-- `TypeSubElementCount::TypeSubElementCount` (lines 55-105): number of leaf
bits of a type.  Tuples sum their element counts (with no zero-check);
fully-referenceable structs sum their stored fields, add one for a deinit, and
fall back to 1 when the total is zero; enums take the max payload count plus
one discriminator bit; everything else is 1. -/
def TypeSubElementCount : SILType → Nat
  | SILType.prim => 1
  | SILType.tupleTy elts => countList elts
  | SILType.structTy fields referenceable hasDeinit =>
      if referenceable then
        let n := countList fields + (if hasDeinit then 1 else 0)
        if n = 0 then 1 else n
      else 1
  | SILType.enumTy cases => countMax cases + 1

/-- Sum of `TypeSubElementCount` over a list of field/element types. -/
def countList : List SILType → Nat
  | [] => 0
  | t :: ts => TypeSubElementCount t + countList ts

/-- Maximum `TypeSubElementCount` over the payload-bearing cases of an enum
(cases without associated values are skipped), starting from 0. -/
def countMax : List (Option SILType) → Nat
  | [] => 0
  | none :: cs => countMax cs
  | some t :: cs => max (TypeSubElementCount t) (countMax cs)

end

/-- C4 counterexample: the empty tuple type reports 0 sub-elements, because
the tuple branch of `TypeSubElementCount` (lines 58-65) sums the element
counts and returns without the zero-check that only the struct branch has.
So `N ≥ 1` fails at the concrete input `tupleTy []`. -/
theorem c4_counterexample_empty_tuple :
    ¬ (1 ≤ TypeSubElementCount (SILType.tupleTy [])) := by
  simp [TypeSubElementCount, countList]

/-- C4 (amended): every type that is not a tuple whose element counts sum to
zero has `TypeSubElementCount ≥ 1`; in particular a fully-referenceable struct
with zero stored fields still reports 1, while a tuple reports the bare sum of
its elements' counts (0 for the empty tuple). -/
theorem c4_subElementCount_positive_amended :
    (∀ t : SILType, 1 ≤ TypeSubElementCount t ∨
      ∃ elts, t = SILType.tupleTy elts ∧ countList elts = 0) ∧
    TypeSubElementCount (SILType.structTy [] true false) = 1 ∧
    (∀ elts, TypeSubElementCount (SILType.tupleTy elts) = countList elts) := by
  refine ⟨?_, by simp [TypeSubElementCount, countList], fun elts => by
    simp [TypeSubElementCount]⟩
  intro t
  cases t with
  | prim => left; simp [TypeSubElementCount]
  | tupleTy elts =>
      rcases Nat.eq_zero_or_pos (countList elts) with h | h
      · right; exact ⟨elts, rfl, h⟩
      · left; simpa [TypeSubElementCount] using h
  | structTy fields referenceable hasDeinit =>
      left
      cases referenceable
      · simp [TypeSubElementCount]
      · by_cases h : countList fields + (if hasDeinit then 1 else 0) = 0 <;>
          simp [TypeSubElementCount, h] <;> omega
  | enumTy cases' => left; simp [TypeSubElementCount]

/-- C5 counterexample: a fully-referenceable struct with no stored fields and
no deinit reports 1 sub-element, not the sum (0) of its fields' counts, so the
claimed unconditional additivity fails at that concrete input. -/
theorem c5_counterexample_empty_struct :
    TypeSubElementCount (SILType.structTy [] true false) ≠
      countList [] + (if false then 1 else 0) := by
  simp [TypeSubElementCount, countList]

/-- C5 (amended): for every tuple, `TypeSubElementCount` is the sum of the
element counts; for every fully-referenceable struct the count is the sum of
the stored-field counts plus one exactly when the struct has a deinit,
except that when that total is zero (no fields, no deinit) the struct reports
1 instead. -/
theorem c5_leafCount_additivity_amended :
    (∀ elts, TypeSubElementCount (SILType.tupleTy elts) = countList elts) ∧
    (∀ fields hasDeinit,
      countList fields + (if hasDeinit then 1 else 0) ≠ 0 →
        TypeSubElementCount (SILType.structTy fields true hasDeinit) =
          countList fields + (if hasDeinit then 1 else 0)) ∧
    (∀ fields hasDeinit,
      countList fields + (if hasDeinit then 1 else 0) = 0 →
        TypeSubElementCount (SILType.structTy fields true hasDeinit) = 1) := by
  refine ⟨fun elts => by simp [TypeSubElementCount], ?_, ?_⟩
  · intro fields hasDeinit h
    simp only [TypeSubElementCount]
    simp [h]
  · intro fields hasDeinit h
    simp only [TypeSubElementCount]
    simp [h]

/-- C5 witness: the amended additivity evaluated on a one-field struct with a
deinit (count `1 + 1 = 2`) and on the empty struct (count 1). -/
theorem c5_leafCount_additivity_amended_witness :
    countList [SILType.prim] + (if true then 1 else 0) ≠ 0 ∧
    TypeSubElementCount (SILType.structTy [SILType.prim] true true) =
      countList [SILType.prim] + (if true then 1 else 0) ∧
    TypeSubElementCount (SILType.structTy [] true false) = 1 :=
  ⟨by simp [countList, TypeSubElementCount],
   c5_leafCount_additivity_amended.2.1 [SILType.prim] true
     (by simp [countList, TypeSubElementCount]),
   c5_leafCount_additivity_amended.2.2 [] false (by simp [countList])⟩

/-! ## Projection-to-offset computation: `SubElementOffset`

A derived address/value is represented by the chain of projections one walks
through from it back to the root: the head of the list is the projection at
the derived end, `[]` means the derived value *is* the root.  Each recognized
projection kind is a constructor; field projections carry the list of sibling
field/element types of the parent aggregate and the index of the projected
field, so that the accumulated offset can be computed exactly as the C++ loop
over the preceding stored properties does.  `unknownAddr` / `unknownValue`
stand for any value that matches none of the recognized kinds. -/

inductive AddrProj where
  | projectBox : AddrProj
  | beginAccess : AddrProj
  | storeBorrow : AddrProj
  | moveOnlyWrapperToCopyableAddr : AddrProj
  | tupleElementAddr : List SILType → Nat → AddrProj
  | structElementAddr : List SILType → Nat → AddrProj
  | uncheckedTakeEnumDataAddr : AddrProj
  | initEnumDataAddr : AddrProj
  | unknownAddr : AddrProj

/-- The loop of `SubElementOffset::computeForAddress` (lines 111-207), with
the accumulated `finalSubElementOffset` made explicit.  Box projections,
access scopes, store-borrows and move-only-wrapper casts are looked through;
tuple/struct element addresses add the sub-element counts of the preceding
siblings; both enum payload projections are looked through unchanged; an
unrecognized value returns `none`. -/
def computeForAddressGo (acc : Nat) : List AddrProj → Option Nat
  | [] => some acc
  | AddrProj.projectBox :: rest => computeForAddressGo acc rest
  | AddrProj.beginAccess :: rest => computeForAddressGo acc rest
  | AddrProj.storeBorrow :: rest => computeForAddressGo acc rest
  | AddrProj.moveOnlyWrapperToCopyableAddr :: rest => computeForAddressGo acc rest
  | AddrProj.tupleElementAddr eltTys i :: rest =>
      computeForAddressGo (acc + countList (eltTys.take i)) rest
  | AddrProj.structElementAddr fieldTys i :: rest =>
      computeForAddressGo (acc + countList (fieldTys.take i)) rest
  | AddrProj.uncheckedTakeEnumDataAddr :: rest => computeForAddressGo acc rest
  | AddrProj.initEnumDataAddr :: rest => computeForAddressGo acc rest
  | AddrProj.unknownAddr :: _ => none

/-- `SubElementOffset::computeForAddress`: offset of a derived address
relative to its root, or `none` for an unrecognized projection chain. -/
def computeForAddress (chain : List AddrProj) : Option Nat :=
  computeForAddressGo 0 chain

inductive ValueProj where
  | beginBorrow : ValueProj
  | copyValue : ValueProj
  | moveOnlyWrapperToCopyableValue : ValueProj
  | tupleExtract : List SILType → Nat → ValueProj
  | destructureStructResult : List SILType → Nat → ValueProj
  | destructureTupleResult : List SILType → Nat → ValueProj
  | structExtract : List SILType → Nat → ValueProj
  | uncheckedEnumData : ValueProj
  | unknownValue : ValueProj

/-- The loop of `SubElementOffset::computeForValue` (lines 209-321): borrow
scopes, copies and move-only-wrapper casts are looked through; tuple extracts,
destructure results and struct extracts add the counts of preceding siblings;
`unchecked_enum_data` is looked through unchanged; an unrecognized value
returns `none`. -/
def computeForValueGo (acc : Nat) : List ValueProj → Option Nat
  | [] => some acc
  | ValueProj.beginBorrow :: rest => computeForValueGo acc rest
  | ValueProj.copyValue :: rest => computeForValueGo acc rest
  | ValueProj.moveOnlyWrapperToCopyableValue :: rest => computeForValueGo acc rest
  | ValueProj.tupleExtract eltTys i :: rest =>
      computeForValueGo (acc + countList (eltTys.take i)) rest
  | ValueProj.destructureStructResult fieldTys i :: rest =>
      computeForValueGo (acc + countList (fieldTys.take i)) rest
  | ValueProj.destructureTupleResult eltTys i :: rest =>
      computeForValueGo (acc + countList (eltTys.take i)) rest
  | ValueProj.structExtract fieldTys i :: rest =>
      computeForValueGo (acc + countList (fieldTys.take i)) rest
  | ValueProj.uncheckedEnumData :: rest => computeForValueGo acc rest
  | ValueProj.unknownValue :: _ => none

/-- `SubElementOffset::computeForValue`. -/
def computeForValue (chain : List ValueProj) : Option Nat :=
  computeForValueGo 0 chain

/-- `countMax` is attained by some payload case (or is 0), and bounds every
payload case's count: it is exactly the maximum of the payload counts. -/
theorem countMax_is_max (cases' : List (Option SILType)) :
    (∀ t, some t ∈ cases' → TypeSubElementCount t ≤ countMax cases') ∧
    (countMax cases' = 0 ∨
      ∃ t, some t ∈ cases' ∧ countMax cases' = TypeSubElementCount t) := by
  induction cases' with
  | nil => simp [countMax]
  | cons c cs ih =>
      cases c with
      | none =>
          refine ⟨?_, ?_⟩
          · intro t ht
            rcases List.mem_cons.mp ht with h | h
            · exact absurd h (by simp)
            · simpa [countMax] using ih.1 t h
          · rcases ih.2 with h | ⟨t, ht, he⟩
            · left; simpa [countMax] using h
            · right; exact ⟨t, List.mem_cons_of_mem _ ht, by simpa [countMax] using he⟩
      | some u =>
          refine ⟨?_, ?_⟩
          · intro t ht
            rcases List.mem_cons.mp ht with h | h
            · obtain rfl : u = t := by simpa using h.symm
              simp [countMax]
            · exact le_trans (ih.1 t h) (by simp [countMax])
          · right
            rcases Nat.le_total (countMax cs) (TypeSubElementCount u) with h | h
            · exact ⟨u, List.mem_cons_self _ _, by simp [countMax, Nat.max_eq_left h]⟩
            · rcases ih.2 with h0 | ⟨t, ht, he⟩
              · exact ⟨u, List.mem_cons_self _ _,
                  by simp [countMax, h0]⟩
              · exact ⟨t, List.mem_cons_of_mem _ ht, by
                  simp only [countMax]
                  rw [Nat.max_eq_right h]
                  exact he⟩

/-- C6: an enum's sub-element count is one (discriminator bit) plus the
maximum over its payload-bearing cases' counts (`countMax` is shown to be
exactly that maximum: it bounds every payload case and is attained by one of
them whenever it is nonzero), and every enum payload projection
(`unchecked_take_enum_data_addr`, `init_enum_data_addr`,
`unchecked_enum_data`) is looked through without changing the accumulated
sub-element offset, so each case's payload is left-aligned at offset 0 of the
enum's range. -/
theorem c6_enum_layout :
    (∀ cases', TypeSubElementCount (SILType.enumTy cases') = countMax cases' + 1) ∧
    (∀ cases' t, some t ∈ cases' → TypeSubElementCount t ≤ countMax cases') ∧
    (∀ cases', countMax cases' = 0 ∨
      ∃ t, some t ∈ cases' ∧ countMax cases' = TypeSubElementCount t) ∧
    (∀ acc rest, computeForAddressGo acc (AddrProj.uncheckedTakeEnumDataAddr :: rest) =
      computeForAddressGo acc rest) ∧
    (∀ acc rest, computeForAddressGo acc (AddrProj.initEnumDataAddr :: rest) =
      computeForAddressGo acc rest) ∧
    (∀ acc rest, computeForValueGo acc (ValueProj.uncheckedEnumData :: rest) =
      computeForValueGo acc rest) :=
  ⟨fun _ => by simp [TypeSubElementCount],
   fun cases' t h => (countMax_is_max cases').1 t h,
   fun cases' => (countMax_is_max cases').2,
   fun _ _ => rfl, fun _ _ => rfl, fun _ _ => rfl⟩

/-- C6 witness: a two-payload enum with payload counts 1 and 3 has
sub-element count 4, and projecting to the larger payload contributes offset
0. -/
theorem c6_enum_layout_witness :
    TypeSubElementCount
      (SILType.enumTy [some SILType.prim,
        some (SILType.tupleTy [SILType.prim, SILType.prim, SILType.prim])]) = 4 ∧
    computeForAddress [AddrProj.uncheckedTakeEnumDataAddr] = some 0 := by
  constructor
  · rw [c6_enum_layout.1]
    simp [countMax, TypeSubElementCount, countList]
  · rw [computeForAddress, c6_enum_layout.2.2.2.1]
    rfl

/-- No address-projection offset is computed from an unrecognized projection:
`computeForAddressGo` yields `none` exactly when the chain contains
`unknownAddr`. -/
theorem computeForAddressGo_none_iff (chain : List AddrProj) :
    ∀ acc, computeForAddressGo acc chain = none ↔ AddrProj.unknownAddr ∈ chain := by
  induction chain with
  | nil => intro acc; simp [computeForAddressGo]
  | cons p rest ih =>
      intro acc
      cases p <;> simp [computeForAddressGo, ih]

/-- Same characterization for value projections. -/
theorem computeForValueGo_none_iff (chain : List ValueProj) :
    ∀ acc, computeForValueGo acc chain = none ↔ ValueProj.unknownValue ∈ chain := by
  induction chain with
  | nil => intro acc; simp [computeForValueGo]
  | cons p rest ih =>
      intro acc
      cases p <;> simp [computeForValueGo, ih]

/-- C8: projection-to-offset computation is total: it returns `none` exactly
when the chain contains an unrecognized projection (and hence always returns
`some` offset on recognized chains — it can never abort), and each
transparent wrapper (box projection, access scope, store-borrow, move-only
wrapper casts, borrow scope, copy) is looked through without changing the
accumulated offset. -/
theorem c8_projection_offset_total :
    (∀ chain, computeForAddress chain = none ↔ AddrProj.unknownAddr ∈ chain) ∧
    (∀ chain, computeForValue chain = none ↔ ValueProj.unknownValue ∈ chain) ∧
    (∀ chain, AddrProj.unknownAddr ∉ chain → ∃ n, computeForAddress chain = some n) ∧
    (∀ chain, ValueProj.unknownValue ∉ chain → ∃ n, computeForValue chain = some n) ∧
    (∀ acc rest, computeForAddressGo acc (AddrProj.projectBox :: rest) =
      computeForAddressGo acc rest) ∧
    (∀ acc rest, computeForAddressGo acc (AddrProj.beginAccess :: rest) =
      computeForAddressGo acc rest) ∧
    (∀ acc rest, computeForAddressGo acc (AddrProj.storeBorrow :: rest) =
      computeForAddressGo acc rest) ∧
    (∀ acc rest, computeForAddressGo acc (AddrProj.moveOnlyWrapperToCopyableAddr :: rest) =
      computeForAddressGo acc rest) ∧
    (∀ acc rest, computeForValueGo acc (ValueProj.beginBorrow :: rest) =
      computeForValueGo acc rest) ∧
    (∀ acc rest, computeForValueGo acc (ValueProj.copyValue :: rest) =
      computeForValueGo acc rest) ∧
    (∀ acc rest, computeForValueGo acc (ValueProj.moveOnlyWrapperToCopyableValue :: rest) =
      computeForValueGo acc rest) := by
  refine ⟨fun chain => computeForAddressGo_none_iff chain 0,
    fun chain => computeForValueGo_none_iff chain 0, ?_, ?_,
    fun _ _ => rfl, fun _ _ => rfl, fun _ _ => rfl, fun _ _ => rfl,
    fun _ _ => rfl, fun _ _ => rfl, fun _ _ => rfl⟩
  · intro chain h
    rcases hr : computeForAddress chain with _ | n
    · exact absurd ((computeForAddressGo_none_iff chain 0).mp hr) h
    · exact ⟨n, rfl⟩
  · intro chain h
    rcases hr : computeForValue chain with _ | n
    · exact absurd ((computeForValueGo_none_iff chain 0).mp hr) h
    · exact ⟨n, rfl⟩

/-- C8 witness: a chain mixing a transparent wrapper with a struct projection
computes an offset, and an unrecognized chain yields `none`. -/
theorem c8_projection_offset_total_witness :
    AddrProj.unknownAddr ∉
      [AddrProj.beginAccess, AddrProj.structElementAddr [SILType.prim, SILType.prim] 1] ∧
    computeForAddress
      [AddrProj.beginAccess, AddrProj.structElementAddr [SILType.prim, SILType.prim] 1] =
      some 1 ∧
    computeForAddress [AddrProj.unknownAddr] = none := by
  refine ⟨by simp, rfl, (c8_projection_offset_total.1 [AddrProj.unknownAddr]).mpr (by simp)⟩

/-! ## `TypeTreeLeafTypeRange::visitContiguousRanges`

A `SmallBitVector` is a `List Bool`; a `TypeTreeLeafTypeRange` passed to the
callback is a half-open pair `(start, end)`.  The callback invocations are
collected into a list, in invocation order. -/

/-- The loop of `visitContiguousRanges` (lines 490-503): `pos` is the loop
index, `cur` the optional start of the currently open run; a set bit opens a
run, an unset bit closes an open run and emits it, and a run still open after
the loop is emitted with the vector size as its end. -/
def vcrGo : List Bool → Nat → Option Nat → List (Nat × Nat)
  | [], _, none => []
  | [], pos, some s => [(s, pos)]
  | b :: rest, pos, none =>
      if b then vcrGo rest (pos + 1) (some pos) else vcrGo rest (pos + 1) none
  | b :: rest, pos, some s =>
      if b then vcrGo rest (pos + 1) (some s)
      else (s, pos) :: vcrGo rest (pos + 1) none

/-- `TypeTreeLeafTypeRange::visitContiguousRanges` (lines 483-504), including
the early return on a size-zero vector. -/
def visitContiguousRanges (bits : List Bool) : List (Nat × Nat) :=
  if bits.length = 0 then [] else vcrGo bits 0 none

theorem visitContiguousRanges_eq_vcrGo (bits : List Bool) :
    visitContiguousRanges bits = vcrGo bits 0 none := by
  cases bits with
  | nil => rfl
  | cons b rest => simp [visitContiguousRanges]

/-- Every range produced by the loop is non-empty and ends within the input
(for an open run, provided it started strictly before the current position). -/
theorem vcrGo_bounds (l : List Bool) :
    ∀ pos : Nat,
      (∀ r ∈ vcrGo l pos none, r.1 < r.2 ∧ r.2 ≤ pos + l.length) ∧
      (∀ s, s < pos → ∀ r ∈ vcrGo l pos (some s), r.1 < r.2 ∧ r.2 ≤ pos + l.length) := by
  induction l with
  | nil =>
      intro pos
      refine ⟨by simp [vcrGo], fun s hs r hr => ?_⟩
      simp [vcrGo] at hr
      subst hr
      exact ⟨hs, by simp⟩
  | cons b rest ih =>
      intro pos
      constructor
      · intro r hr
        cases b
        · have h := (ih (pos + 1)).1 r (by simpa [vcrGo] using hr)
          exact ⟨h.1, by simp only [List.length_cons]; omega⟩
        · have h := (ih (pos + 1)).2 pos (by omega) r (by simpa [vcrGo] using hr)
          exact ⟨h.1, by simp only [List.length_cons]; omega⟩
      · intro s hs r hr
        cases b
        · rcases List.mem_cons.mp (by simpa [vcrGo] using hr) with h | h
          · subst h
            exact ⟨hs, by simp only [List.length_cons]; omega⟩
          · have h2 := (ih (pos + 1)).1 r h
            exact ⟨h2.1, by simp only [List.length_cons]; omega⟩
        · have h := (ih (pos + 1)).2 s (by omega) r (by simpa [vcrGo] using hr)
          exact ⟨h.1, by simp only [List.length_cons]; omega⟩

/-- The emitted ranges are separated — each ends strictly before the next
starts — and every emitted range starts no earlier than the current position
(no earlier than the open run's start, when a run is open). -/
theorem vcrGo_separated (l : List Bool) :
    ∀ pos : Nat,
      ((∀ r ∈ vcrGo l pos none, pos ≤ r.1) ∧
        List.Pairwise (fun a b : Nat × Nat => a.2 < b.1) (vcrGo l pos none)) ∧
      (∀ s, s ≤ pos →
        (∀ r ∈ vcrGo l pos (some s), s ≤ r.1) ∧
        List.Pairwise (fun a b : Nat × Nat => a.2 < b.1) (vcrGo l pos (some s))) := by
  induction l with
  | nil =>
      intro pos
      refine ⟨⟨by simp [vcrGo], by simp [vcrGo]⟩, fun s hs => ⟨fun r hr => ?_, by simp [vcrGo]⟩⟩
      simp [vcrGo] at hr
      subst hr
      exact le_refl s
  | cons b rest ih =>
      intro pos
      constructor
      · constructor
        · intro r hr
          cases b
          · have h := ((ih (pos + 1)).1).1 r (by simpa [vcrGo] using hr)
            omega
          · have h := ((ih (pos + 1)).2 pos (by omega)).1 r (by simpa [vcrGo] using hr)
            exact h
        · cases b
          · simpa [vcrGo] using ((ih (pos + 1)).1).2
          · simpa [vcrGo] using ((ih (pos + 1)).2 pos (by omega)).2
      · intro s hs
        constructor
        · intro r hr
          cases b
          · rcases List.mem_cons.mp (by simpa [vcrGo] using hr) with h | h
            · subst h
              exact le_refl s
            · have h2 := ((ih (pos + 1)).1).1 r h
              omega
          · exact ((ih (pos + 1)).2 s (by omega)).1 r (by simpa [vcrGo] using hr)
        · cases b
          · have hpair := ((ih (pos + 1)).1).2
            have hge := ((ih (pos + 1)).1).1
            have : vcrGo (false :: rest) pos (some s) =
                (s, pos) :: vcrGo rest (pos + 1) none := by simp [vcrGo]
            rw [this]
            exact List.Pairwise.cons (fun r hr => by have := hge r hr; omega) hpair
          · simpa [vcrGo] using ((ih (pos + 1)).2 s (by omega)).2

/-- Coverage: a position lies in some emitted range exactly when it is a set
bit of the remaining vector (or, when a run is open, lies inside that run). -/
theorem vcrGo_covers (l : List Bool) :
    ∀ pos : Nat,
      (∀ i : Nat,
        (∃ r ∈ vcrGo l pos none, r.1 ≤ i ∧ i < r.2) ↔
          ∃ j, i = pos + j ∧ l.getD j false = true) ∧
      (∀ s, s ≤ pos → ∀ i : Nat,
        (∃ r ∈ vcrGo l pos (some s), r.1 ≤ i ∧ i < r.2) ↔
          ((s ≤ i ∧ i < pos) ∨ ∃ j, i = pos + j ∧ l.getD j false = true)) := by
  induction l with
  | nil =>
      intro pos
      constructor
      · intro i
        simp [vcrGo]
      · intro s hs i
        simp only [vcrGo, List.getD_nil]
        constructor
        · rintro ⟨r, hr, h1, h2⟩
          simp at hr
          subst hr
          exact Or.inl ⟨h1, h2⟩
        · rintro (⟨h1, h2⟩ | ⟨j, _, hj⟩)
          · exact ⟨(s, pos), by simp, h1, h2⟩
          · exact absurd hj (by simp)
  | cons b rest ih =>
      intro pos
      constructor
      · intro i
        cases b
        · have heq : vcrGo (false :: rest) pos none = vcrGo rest (pos + 1) none := by
            simp [vcrGo]
          rw [heq, ((ih (pos + 1)).1) i]
          constructor
          · rintro ⟨j, hj, hr⟩
            exact ⟨j + 1, by omega, by simpa using hr⟩
          · rintro ⟨j, hj, hr⟩
            cases j with
            | zero => rw [List.getD_cons_zero] at hr; exact absurd hr (by decide)
            | succ j' => exact ⟨j', by omega, by simpa using hr⟩
        · have heq : vcrGo (true :: rest) pos none = vcrGo rest (pos + 1) (some pos) := by
            simp [vcrGo]
          rw [heq, ((ih (pos + 1)).2 pos (by omega)) i]
          constructor
          · rintro (⟨h1, h2⟩ | ⟨j, hj, hr⟩)
            · exact ⟨0, by omega, by simp⟩
            · exact ⟨j + 1, by omega, by simpa using hr⟩
          · rintro ⟨j, hj, hr⟩
            cases j with
            | zero => exact Or.inl (by omega)
            | succ j' => exact Or.inr ⟨j', by omega, by simpa using hr⟩
      · intro s hs i
        cases b
        · have heq : vcrGo (false :: rest) pos (some s) =
              (s, pos) :: vcrGo rest (pos + 1) none := by simp [vcrGo]
          rw [heq]
          constructor
          · rintro ⟨r, hr, h1, h2⟩
            rcases List.mem_cons.mp hr with h | h
            · subst h
              exact Or.inl ⟨h1, h2⟩
            · rcases (((ih (pos + 1)).1) i).mp ⟨r, h, h1, h2⟩ with ⟨j, hj, hjr⟩
              exact Or.inr ⟨j + 1, by omega, by simpa using hjr⟩
          · rintro (⟨h1, h2⟩ | ⟨j, hj, hr⟩)
            · exact ⟨(s, pos), List.mem_cons_self _ _, h1, h2⟩
            · cases j with
              | zero => rw [List.getD_cons_zero] at hr; exact absurd hr (by decide)
              | succ j' =>
                  rcases (((ih (pos + 1)).1) i).mpr ⟨j', by omega, by simpa using hr⟩ with
                    ⟨r, hrm, hr1, hr2⟩
                  exact ⟨r, List.mem_cons_of_mem _ hrm, hr1, hr2⟩
        · have heq : vcrGo (true :: rest) pos (some s) = vcrGo rest (pos + 1) (some s) := by
            simp [vcrGo]
          rw [heq, ((ih (pos + 1)).2 s (by omega)) i]
          constructor
          · rintro (⟨h1, h2⟩ | ⟨j, hj, hr⟩)
            · rcases Nat.lt_or_ge i pos with h | h
              · exact Or.inl ⟨h1, h⟩
              · exact Or.inr ⟨0, by omega, by simp⟩
            · exact Or.inr ⟨j + 1, by omega, by simpa using hr⟩
          · rintro (⟨h1, h2⟩ | ⟨j, hj, hr⟩)
            · exact Or.inl ⟨h1, by omega⟩
            · cases j with
              | zero => exact Or.inl ⟨by omega, by omega⟩
              | succ j' => exact Or.inr ⟨j', by omega, by simpa using hr⟩

/-- Two members of a list that is pairwise separated are either equal or
ordered one way or the other. -/
theorem pairwise_mem_cases {l : List (Nat × Nat)}
    (hp : List.Pairwise (fun a b : Nat × Nat => a.2 < b.1) l)
    {a b : Nat × Nat} (ha : a ∈ l) (hb : b ∈ l) :
    a = b ∨ a.2 < b.1 ∨ b.2 < a.1 := by
  rcases List.mem_iff_get.mp ha with ⟨m, hm⟩
  rcases List.mem_iff_get.mp hb with ⟨n, hn⟩
  subst hm
  subst hn
  rcases Nat.lt_trichotomy m.val n.val with h | h | h
  · exact Or.inr (Or.inl (List.pairwise_iff_get.mp hp m n (Fin.lt_def.mpr h)))
  · exact Or.inl (by rw [Fin.ext h])
  · exact Or.inr (Or.inr (List.pairwise_iff_get.mp hp n m (Fin.lt_def.mpr h)))

/-- C10: `visitContiguousRanges` emits exactly the maximal contiguous runs of
set bits, as non-empty half-open ranges within the vector, pairwise separated
(hence disjoint and in increasing start order), whose union is exactly the
set of set bits; each emitted range is maximal (the bit before its start, if
any, and the bit at its end, if any, are unset); a vector with no set bits
(in particular the empty vector) produces no callback invocation. -/
theorem c10_visitContiguousRanges_maximal_runs (bits : List Bool) :
    (∀ r ∈ visitContiguousRanges bits, r.1 < r.2 ∧ r.2 ≤ bits.length) ∧
    List.Pairwise (fun a b : Nat × Nat => a.2 < b.1) (visitContiguousRanges bits) ∧
    (∀ i : Nat, (∃ r ∈ visitContiguousRanges bits, r.1 ≤ i ∧ i < r.2) ↔
      bits.getD i false = true) ∧
    (∀ r ∈ visitContiguousRanges bits,
      (r.1 = 0 ∨ bits.getD (r.1 - 1) false = false) ∧
      bits.getD r.2 false = false) ∧
    ((∀ i : Nat, bits.getD i false = false) → visitContiguousRanges bits = []) := by
  rw [visitContiguousRanges_eq_vcrGo]
  have hb : ∀ r ∈ vcrGo bits 0 none, r.1 < r.2 ∧ r.2 ≤ bits.length := by
    simpa using (vcrGo_bounds bits 0).1
  have hsep := ((vcrGo_separated bits 0).1).2
  have hcov : ∀ i : Nat,
      (∃ r ∈ vcrGo bits 0 none, r.1 ≤ i ∧ i < r.2) ↔ bits.getD i false = true := by
    intro i
    rw [(vcrGo_covers bits 0).1 i]
    constructor
    · rintro ⟨j, hj, hr⟩
      obtain rfl : i = j := by omega
      exact hr
    · intro h
      exact ⟨i, by omega, h⟩
  refine ⟨hb, hsep, hcov, ?_, ?_⟩
  · intro r hr
    constructor
    · by_cases h0 : r.1 = 0
      · exact Or.inl h0
      · right
        by_cases hbit : bits.getD (r.1 - 1) false = true
        · exfalso
          rcases (hcov (r.1 - 1)).mpr hbit with ⟨r', hr', h1, h2⟩
          have hbr := hb r hr
          have hbr' := hb r' hr'
          rcases pairwise_mem_cases hsep hr hr' with heq | hlt | hgt
          · subst heq
            omega
          · omega
          · omega
        · simpa using hbit
    · by_cases hbit : bits.getD r.2 false = true
      · exfalso
        rcases (hcov r.2).mpr hbit with ⟨r', hr', h1, h2⟩
        have hbr := hb r hr
        have hbr' := hb r' hr'
        rcases pairwise_mem_cases hsep hr hr' with heq | hlt | hgt
        · subst heq
          omega
        · omega
        · omega
      · simpa using hbit
  · intro hall
    cases hl : vcrGo bits 0 none with
    | nil => rfl
    | cons r rest =>
        exfalso
        have hr : r ∈ vcrGo bits 0 none := by
          rw [hl]
          exact List.mem_cons_self _ _
        have hb1 := hb r hr
        have hc := (hcov r.1).mp ⟨r, hr, le_refl _, hb1.1⟩
        rw [hall r.1] at hc
        exact absurd hc (by decide)

/-- C10 witness: the all-unset singleton vector produces no ranges, through
the no-set-bits clause of the main theorem. -/
theorem c10_visitContiguousRanges_maximal_runs_witness :
    (∀ i : Nat, ([false] : List Bool).getD i false = false) ∧
    visitContiguousRanges [false] = [] := by
  have hall : ∀ i : Nat, ([false] : List Bool).getD i false = false := by
    intro i
    cases i with
    | zero => rfl
    | succ j => rw [List.getD_cons_succ]; exact List.getD_nil
  exact ⟨hall, (c10_visitContiguousRanges_maximal_runs [false]).2.2.2.2 hall⟩

/-! ## `FieldSensitiveMultiDefPrunedLiveRange::isUserBeforeDef`

A basic block is a list of block-argument identifiers plus a list of
instruction identifiers in program order; the user is identified by its index
in the instruction list; `d` answers, for the fixed element (bit), whether a
given argument or instruction identifier is a definition of it. -/

/-- The backward walk of `isUserBeforeDef` (lines 1048-1057): the input list
holds the instructions strictly preceding the user, innermost (closest to the
user) first; reaching the block start without a definition yields `true`,
finding a definition yields `false`. -/
def walkBackForDef (d : Nat → Bool) : List Nat → Bool
  | [] => true
  | i :: rest => if d i then false else walkBackForDef d rest

/-- `FieldSensitiveMultiDefPrunedLiveRange::isUserBeforeDef` (lines
1036-1058).  `isDefBlock` lives in the class header, outside this repository;
it is modelled from the spec here as "some argument or instruction of the
block defines the bit" (the variant registers exactly the blocks of its
declared definitions).  The walk returns `false` for a non-def block, `false`
when a block argument defines the bit, and otherwise walks backward from the
user looking for an instruction definition. -/
def isUserBeforeDef (args insts : List Nat) (userIdx : Nat) (d : Nat → Bool) : Bool :=
  if !(args.any d || insts.any d) then false
  else if args.any d then false
  else walkBackForDef d ((insts.take userIdx).reverse)

/-- C7 counterexample: a block whose only definition of the bit is a block
argument (argument 0; the user is instruction 1, the first instruction).  No
definition is found walking backward from the user (the walk immediately
reaches the block start, `walkBackForDef` on the empty prefix is `true`), yet
`isUserBeforeDef` returns `false` — the claimed equivalence "`false` exactly
when a definition is found walking backward" fails, because a block-argument
definition also yields `false` (lines 1042-1046), not `true`. -/
theorem c7_counterexample_block_arg_def :
    isUserBeforeDef [0] [1] 0 (fun a => a == 0) = false ∧
    walkBackForDef (fun a => a == 0) (([1].take 0).reverse) = true := by
  constructor <;> rfl

/-- C7 (amended): `isUserBeforeDef` returns `true` iff the user's block is a
def block for the bit, no block argument defines the bit, and the backward
walk from the user reaches the block start without finding an instruction
definition; in particular both a non-def block and a block whose definition
of the bit is a block argument yield `false` (not before the def). -/
theorem c7_isUserBeforeDef_amended (args insts : List Nat) (userIdx : Nat)
    (d : Nat → Bool) :
    isUserBeforeDef args insts userIdx d = true ↔
      ((args.any d || insts.any d) = true ∧ args.any d = false ∧
        walkBackForDef d ((insts.take userIdx).reverse) = true) := by
  unfold isUserBeforeDef
  by_cases hblk : (args.any d || insts.any d) = true
  · by_cases harg : args.any d = true
    · simp [hblk, harg]
    · simp only [Bool.not_eq_true] at harg
      simp [hblk, harg]
  · simp only [Bool.not_eq_true] at hblk
    simp [hblk]

/-- C7 witness: in a block whose first instruction (5) defines the bit, a user
at index 0 walks back to the block start without finding a definition, so it
is before the def. -/
theorem c7_isUserBeforeDef_amended_witness :
    isUserBeforeDef [] [5] 0 (fun a => a == 5) = true ↔
      ((([] : List Nat).any (fun a => a == 5) || [5].any (fun a => a == 5)) = true ∧
        ([] : List Nat).any (fun a => a == 5) = false ∧
        walkBackForDef (fun a => a == 5) (([5].take 0).reverse) = true) :=
  c7_isUserBeforeDef_amended [] [5] 0 (fun a => a == 5)

/-! ## Block liveness engine: `FieldSensitivePrunedLiveBlocks`

Blocks are natural-number identifiers; the per-(block, bit) state store is a
total function.  A `CFG` supplies predecessor and successor lists. -/

/-- The three-state liveness lattice of `FieldSensitivePrunedLiveBlocks`. -/
inductive IsLive where
  | Dead : IsLive
  | LiveWithin : IsLive
  | LiveOut : IsLive
deriving DecidableEq

/-- Height of a state in the lattice `Dead < LiveWithin < LiveOut`. -/
def IsLive.toNat : IsLive → Nat
  | IsLive.Dead => 0
  | IsLive.LiveWithin => 1
  | IsLive.LiveOut => 2

/-- Lattice order on liveness states. -/
def leLive (a b : IsLive) : Prop := a.toNat ≤ b.toNat

theorem leLive_refl (a : IsLive) : leLive a a := Nat.le_refl _

theorem leLive_trans {a b c : IsLive} (h1 : leLive a b) (h2 : leLive b c) :
    leLive a c := Nat.le_trans h1 h2

theorem leLive_liveOut_left {a : IsLive} (h : leLive IsLive.LiveOut a) :
    a = IsLive.LiveOut := by
  cases a <;> simp [leLive, IsLive.toNat] at h ⊢

abbrev Block := Nat

/-- Predecessor and successor lists of the control-flow graph. -/
structure CFG where
  preds : Block → List Block
  succs : Block → List Block

/-- Per-(block, bit) liveness state store. -/
abbrev LiveMap := Block → Nat → IsLive

/-- Read a (block, bit) state, `getBlockLiveness`. -/
def getBlockLiveness (s : LiveMap) (b : Block) (bit : Nat) : IsLive := s b bit

/-- Modelled from the spec: `FieldSensitivePrunedLiveBlocks::markBlockLive`
lives in the class header (`include/swift/SIL/FieldSensitivePrunedLiveness.h`),
which is not part of this repository snapshot.  Per the spec's data model,
per-(block, bit) states are "monotonically promoted
(`Dead → LiveWithin → LiveOut`, never regresses)", so marking stores the join
of the previous and the requested state. -/
def markBlockLive (s : LiveMap) (bb : Block) (bit : Nat) (l : IsLive) : LiveMap :=
  fun b i =>
    if b = bb ∧ i = bit then
      if (s b i).toNat ≤ l.toNat then l else s b i
    else s b i

/-- The worklist loop of `computeScalarUseBlockLiveness` (lines 516-536): pop
a block, and for each of its predecessors: a `Dead` predecessor is pushed (if
not already visited) and promoted to `LiveOut`, a `LiveWithin` predecessor is
promoted to `LiveOut`, a `LiveOut` predecessor is left alone.  The worklist
and its pushed-blocks set are explicit; `fuel` bounds the number of pops. -/
def scalarLoop (cfg : CFG) (bit : Nat) :
    Nat → LiveMap → List Block → List Block → LiveMap
  | 0, s, _, _ => s
  | _ + 1, s, [], _ => s
  | fuel + 1, s, block :: rest, visited =>
      let r := (cfg.preds block).foldl
        (fun (acc : LiveMap × List Block × List Block) pred =>
          match getBlockLiveness acc.1 pred bit with
          | IsLive.Dead =>
              if pred ∈ acc.2.2 then
                (markBlockLive acc.1 pred bit IsLive.LiveOut, acc.2.1, acc.2.2)
              else
                (markBlockLive acc.1 pred bit IsLive.LiveOut,
                  acc.2.1 ++ [pred], pred :: acc.2.2)
          | IsLive.LiveWithin =>
              (markBlockLive acc.1 pred bit IsLive.LiveOut, acc.2.1, acc.2.2)
          | IsLive.LiveOut => acc)
        (s, rest, visited)
      scalarLoop cfg bit fuel r.1 r.2.1 r.2.2

/-- `FieldSensitivePrunedLiveBlocks::computeScalarUseBlockLiveness` (lines
510-537): mark the use block `LiveWithin`, then run the backward worklist
from it. -/
def computeScalarUseBlockLiveness (cfg : CFG) (fuel : Nat) (s : LiveMap)
    (userBB : Block) (bit : Nat) : LiveMap :=
  scalarLoop cfg bit fuel (markBlockLive s userBB bit IsLive.LiveWithin)
    [userBB] [userBB]

/-- One bit of `FieldSensitivePrunedLiveBlocks::updateForUse` (lines 544-578):
a block already `LiveOut` or `LiveWithin` for the bit is left alone unless the
use is flagged use-before-def, in which case — as for a `Dead` block — the
scalar worklist propagation runs. -/
def updateForUseBit (cfg : CFG) (fuel : Nat) (s : LiveMap) (userBB : Block)
    (bit : Nat) (useBeforeDef : Bool) : LiveMap :=
  match getBlockLiveness s userBB bit with
  | IsLive.LiveOut =>
      if useBeforeDef then computeScalarUseBlockLiveness cfg fuel s userBB bit else s
  | IsLive.LiveWithin =>
      if useBeforeDef then computeScalarUseBlockLiveness cfg fuel s userBB bit else s
  | IsLive.Dead => computeScalarUseBlockLiveness cfg fuel s userBB bit

/-- A whole analysis run over the block-liveness state: each operation is one
(use block, bit, use-before-def flag) triple.  Both
`FieldSensitivePrunedLiveness::updateForUse` and `extendToNonUse` (lines
646-684) drive the engine through exactly such per-bit
`liveBlocks.updateForUse` calls — they differ only in the interesting-user
record, which does not touch the block-liveness state. -/
def runUseOps (cfg : CFG) (fuel : Nat) (s : LiveMap)
    (ops : List (Block × Nat × Bool)) : LiveMap :=
  ops.foldl (fun st op => updateForUseBit cfg fuel st op.1 op.2.1 op.2.2) s

theorem markBlockLive_mono (s : LiveMap) (bb : Block) (bit : Nat) (l : IsLive)
    (b : Block) (i : Nat) : leLive (s b i) (markBlockLive s bb bit l b i) := by
  unfold markBlockLive
  by_cases h : b = bb ∧ i = bit
  · obtain ⟨rfl, rfl⟩ := h
    rw [if_pos (show b = b ∧ i = i from ⟨rfl, rfl⟩)]
    by_cases h2 : (s b i).toNat ≤ l.toNat
    · rw [if_pos h2]
      exact h2
    · rw [if_neg h2]
      exact leLive_refl _
  · rw [if_neg h]
    exact leLive_refl _

theorem scalarStep_mono (cfg : CFG) (bit : Nat) (ps : List Block) :
    ∀ (acc : LiveMap × List Block × List Block) (b : Block) (i : Nat),
      leLive (acc.1 b i)
        ((ps.foldl
          (fun (acc : LiveMap × List Block × List Block) pred =>
            match getBlockLiveness acc.1 pred bit with
            | IsLive.Dead =>
                if pred ∈ acc.2.2 then
                  (markBlockLive acc.1 pred bit IsLive.LiveOut, acc.2.1, acc.2.2)
                else
                  (markBlockLive acc.1 pred bit IsLive.LiveOut,
                    acc.2.1 ++ [pred], pred :: acc.2.2)
            | IsLive.LiveWithin =>
                (markBlockLive acc.1 pred bit IsLive.LiveOut, acc.2.1, acc.2.2)
            | IsLive.LiveOut => acc) acc).1 b i) := by
  induction ps with
  | nil => intro acc b i; exact leLive_refl _
  | cons p ps ih =>
      intro acc b i
      refine leLive_trans ?_ (ih _ b i)
      rcases hl : getBlockLiveness acc.1 p bit with _ | _ | _
      · simp only [List.foldl_cons, hl]
        by_cases hmem : p ∈ acc.2.2
        · simp only [hmem, if_true]
          exact markBlockLive_mono _ _ _ _ _ _
        · simp only [hmem, if_false]
          exact markBlockLive_mono _ _ _ _ _ _
      · simp only [List.foldl_cons, hl]
        exact markBlockLive_mono _ _ _ _ _ _
      · simp only [List.foldl_cons, hl]
        exact leLive_refl _

theorem scalarLoop_mono (cfg : CFG) (bit : Nat) :
    ∀ (fuel : Nat) (s : LiveMap) (wl visited : List Block) (b : Block) (i : Nat),
      leLive (s b i) (scalarLoop cfg bit fuel s wl visited b i) := by
  intro fuel
  induction fuel with
  | zero => intro s wl visited b i; exact leLive_refl _
  | succ fuel ih =>
      intro s wl visited b i
      cases wl with
      | nil => exact leLive_refl _
      | cons block rest =>
          rw [scalarLoop]
          exact leLive_trans (scalarStep_mono cfg bit (cfg.preds block) (s, rest, visited) b i)
            (ih _ _ _ b i)

theorem computeScalarUseBlockLiveness_mono (cfg : CFG) (fuel : Nat) (s : LiveMap)
    (userBB : Block) (bit : Nat) (b : Block) (i : Nat) :
    leLive (s b i) (computeScalarUseBlockLiveness cfg fuel s userBB bit b i) :=
  leLive_trans (markBlockLive_mono s userBB bit IsLive.LiveWithin b i)
    (scalarLoop_mono cfg bit fuel _ [userBB] [userBB] b i)

theorem updateForUseBit_mono (cfg : CFG) (fuel : Nat) (s : LiveMap)
    (userBB : Block) (bit : Nat) (ubd : Bool) (b : Block) (i : Nat) :
    leLive (s b i) (updateForUseBit cfg fuel s userBB bit ubd b i) := by
  unfold updateForUseBit
  rcases hl : getBlockLiveness s userBB bit with _ | _ | _
  · exact computeScalarUseBlockLiveness_mono cfg fuel s userBB bit b i
  · cases ubd
    · exact leLive_refl _
    · exact computeScalarUseBlockLiveness_mono cfg fuel s userBB bit b i
  · cases ubd
    · exact leLive_refl _
    · exact computeScalarUseBlockLiveness_mono cfg fuel s userBB bit b i

/-- C1: over any sequence of `updateForUse` / `extendToNonUse` operations the
liveness state of every (block, bit) pair never decreases in the lattice
`Dead < LiveWithin < LiveOut`; in particular a pair already `LiveOut` stays
`LiveOut` after any further recorded uses (a plain use of a `LiveOut` block is
a no-op on the state, and even a use-before-def re-propagation can only
re-affirm `LiveOut`). -/
theorem c1_blockLiveness_monotone (cfg : CFG) (fuel : Nat)
    (ops : List (Block × Nat × Bool)) (s : LiveMap) (b : Block) (i : Nat) :
    leLive (s b i) (runUseOps cfg fuel s ops b i) ∧
    (s b i = IsLive.LiveOut → runUseOps cfg fuel s ops b i = IsLive.LiveOut) := by
  have hmono : ∀ (ops : List (Block × Nat × Bool)) (s : LiveMap),
      leLive (s b i) (runUseOps cfg fuel s ops b i) := by
    intro ops
    induction ops with
    | nil => intro s; exact leLive_refl _
    | cons op rest ih =>
        intro s
        exact leLive_trans (updateForUseBit_mono cfg fuel s op.1 op.2.1 op.2.2 b i)
          (ih _)
  refine ⟨hmono ops s, fun hout => ?_⟩
  have := hmono ops s
  rw [hout] at this
  exact leLive_liveOut_left this

/-- C1 witness: one recorded use-before-def on a block that is already
`LiveOut` (in a one-block CFG with a self-loop) leaves the state `LiveOut`. -/
theorem c1_blockLiveness_monotone_witness :
    leLive ((fun _ _ => IsLive.LiveOut) 0 0)
      (runUseOps (CFG.mk (fun _ => [0]) (fun _ => [0])) 2 (fun _ _ => IsLive.LiveOut)
        [(0, 0, true)] 0 0) ∧
    ((fun _ _ => IsLive.LiveOut) 0 0 = IsLive.LiveOut →
      runUseOps (CFG.mk (fun _ => [0]) (fun _ => [0])) 2 (fun _ _ => IsLive.LiveOut)
        [(0, 0, true)] 0 0 = IsLive.LiveOut) :=
  c1_blockLiveness_monotone (CFG.mk (fun _ => [0]) (fun _ => [0])) 2
    [(0, 0, true)] (fun _ _ => IsLive.LiveOut) 0 0

/-! ## `FieldSensitivePrunedLivenessBoundary` and the Boundary Resolver

The boundary's three maps are Bool-valued functions over (identifier, bit):
`getLastUserBits(inst).set(bit)`, `getDeadDefsBits(def).set(bit)` and
`getBoundaryEdgeBits(block).set(bit)` become pointwise updates. -/

structure Boundary where
  lastUsers : Nat → Nat → Bool
  deadDefs : Nat → Nat → Bool
  boundaryEdges : Block → Nat → Bool

/-- The freshly constructed, empty boundary. -/
def Boundary.empty : Boundary :=
  Boundary.mk (fun _ _ => false) (fun _ _ => false) (fun _ _ => false)

/-- `boundary.getLastUserBits(inst).set(bit)`. -/
def setLastUser (bd : Boundary) (inst bit : Nat) : Boundary :=
  Boundary.mk (fun u j => if u = inst ∧ j = bit then true else bd.lastUsers u j)
    bd.deadDefs bd.boundaryEdges

/-- `boundary.getDeadDefsBits(def).set(bit)`. -/
def setDeadDef (bd : Boundary) (defNode bit : Nat) : Boundary :=
  Boundary.mk bd.lastUsers
    (fun u j => if u = defNode ∧ j = bit then true else bd.deadDefs u j)
    bd.boundaryEdges

/-- `boundary.getBoundaryEdgeBits(block).set(bit)`. -/
def setBoundaryEdge (bd : Boundary) (b : Block) (bit : Nat) : Boundary :=
  Boundary.mk bd.lastUsers bd.deadDefs
    (fun u j => if u = b ∧ j = bit then true else bd.boundaryEdges u j)

/-- `findBoundaryInNonDefBlock` (lines 1099-1115): scan the block backward
(the argument list is the block's instructions reversed) and record the first
interesting user as last user.  The C++ `llvm_unreachable` at the end (a
live-within block must contain an interesting use) is modelled as returning
the boundary unchanged. -/
def findBoundaryInNonDefBlock (instsRev : List Nat) (interesting : Nat → Nat → Bool)
    (bit : Nat) (bd : Boundary) : Boundary :=
  match instsRev with
  | [] => bd
  | i :: rest =>
      if interesting i bit then setLastUser bd i bit
      else findBoundaryInNonDefBlock rest interesting bit bd

/-- `findBoundaryInSSADefBlock` (lines 1125-1148): scan backward; the
definition instruction (when the single def is an instruction,
`defIsInst = true`, identified by `defNode`) becomes a dead def, an
interesting user becomes the last user, and falling off the block start
records the def (a block argument) as a dead def. -/
def findBoundaryInSSADefBlock (instsRev : List Nat) (defIsInst : Bool)
    (defNode : Nat) (interesting : Nat → Nat → Bool) (bit : Nat)
    (bd : Boundary) : Boundary :=
  match instsRev with
  | [] => setDeadDef bd defNode bit
  | i :: rest =>
      if defIsInst ∧ i = defNode then setDeadDef bd i bit
      else if interesting i bit then setLastUser bd i bit
      else findBoundaryInSSADefBlock rest defIsInst defNode interesting bit bd

/-- The data of a `FieldSensitiveSSAPrunedLiveRange` needed by its
`findBoundariesInBlock`: the def-block predicate, the single def (an
instruction or a block argument), per-block instruction lists and the
interesting-user oracle. -/
structure SSALiveRange where
  isDefBlock : Block → Nat → Bool
  defIsInst : Bool
  defNode : Nat
  blockInsts : Block → List Nat
  interesting : Nat → Nat → Bool

/-- `FieldSensitiveSSAPrunedLiveRange::findBoundariesInBlock` (lines
1158-1179): a live-out block records nothing; a live-within non-def block
records its last user; a live-within def block records a last user or dead
def. -/
def ssaFindBoundariesInBlock (ctx : SSALiveRange) (block : Block) (bit : Nat)
    (isLiveOut : Bool) (bd : Boundary) : Boundary :=
  if isLiveOut then bd
  else if ctx.isDefBlock block bit = false then
    findBoundaryInNonDefBlock ((ctx.blockInsts block).reverse) ctx.interesting bit bd
  else
    findBoundaryInSSADefBlock ((ctx.blockInsts block).reverse) ctx.defIsInst
      ctx.defNode ctx.interesting bit bd

/-- One successor visit of the `LiveOut` arm of `computeBoundary` (lines
923-931): a `Dead` successor gets a boundary edge for the bit. -/
def edgeStep (liveness : Block → Nat → IsLive) (bit : Nat) (bd : Boundary)
    (succBB : Block) : Boundary :=
  if liveness succBB bit = IsLive.Dead then setBoundaryEdge bd succBB bit else bd

/-- One bit of the per-block loop of `computeBoundary` (lines 918-948):
`LiveOut` marks dead successors' edges then delegates with `isLiveOut=true`;
`LiveWithin` delegates with `isLiveOut=false`; `Dead` contributes nothing. -/
def bitStep (succs : Block → List Block) (liveness : Block → Nat → IsLive)
    (findFn : Block → Nat → Bool → Boundary → Boundary) (block : Block)
    (bd : Boundary) (bit : Nat) : Boundary :=
  match liveness block bit with
  | IsLive.LiveOut =>
      findFn block bit true ((succs block).foldl (edgeStep liveness bit) bd)
  | IsLive.LiveWithin => findFn block bit false bd
  | IsLive.Dead => bd

/-- `FieldSensitivePrunedLiveRange::computeBoundary` (lines 900-951): for
every discovered block and every tracked bit, dispatch on the block's
liveness.  `findFn` is the variant's `findBoundariesInBlock`. -/
def computeBoundaryAux (succs : Block → List Block)
    (liveness : Block → Nat → IsLive) (numBits : Nat)
    (findFn : Block → Nat → Bool → Boundary → Boundary)
    (discovered : List Block) (bd0 : Boundary) : Boundary :=
  discovered.foldl
    (fun bd block => (List.range numBits).foldl (bitStep succs liveness findFn block) bd)
    bd0

theorem setBoundaryEdge_edges (bd : Boundary) (b : Block) (bit : Nat)
    (s : Block) (i : Nat) :
    (setBoundaryEdge bd b bit).boundaryEdges s i = true ↔
      ((s = b ∧ i = bit) ∨ bd.boundaryEdges s i = true) := by
  by_cases h : s = b ∧ i = bit <;> simp [setBoundaryEdge, h]

theorem edgeFold_edges (liveness : Block → Nat → IsLive) (bit : Nat)
    (sl : List Block) :
    ∀ (bd : Boundary) (s : Block) (i : Nat),
      ((sl.foldl (edgeStep liveness bit) bd).boundaryEdges s i = true) ↔
        (bd.boundaryEdges s i = true ∨
          (i = bit ∧ s ∈ sl ∧ liveness s bit = IsLive.Dead)) := by
  induction sl with
  | nil => intro bd s i; simp
  | cons p ps ih =>
      intro bd s i
      rw [List.foldl_cons, ih (edgeStep liveness bit bd p) s i]
      unfold edgeStep
      by_cases hd : liveness p bit = IsLive.Dead
      · rw [if_pos hd, setBoundaryEdge_edges]
        constructor
        · rintro ((⟨rfl, rfl⟩ | hbd) | ⟨rfl, hmem, hdead⟩)
          · exact Or.inr ⟨rfl, List.mem_cons_self _ _, hd⟩
          · exact Or.inl hbd
          · exact Or.inr ⟨rfl, List.mem_cons_of_mem _ hmem, hdead⟩
        · rintro (hbd | ⟨rfl, hmem, hdead⟩)
          · exact Or.inl (Or.inr hbd)
          · rcases List.mem_cons.mp hmem with rfl | hmem'
            · exact Or.inl (Or.inl ⟨rfl, rfl⟩)
            · exact Or.inr ⟨rfl, hmem', hdead⟩
      · rw [if_neg hd]
        constructor
        · rintro (hbd | ⟨rfl, hmem, hdead⟩)
          · exact Or.inl hbd
          · exact Or.inr ⟨rfl, List.mem_cons_of_mem _ hmem, hdead⟩
        · rintro (hbd | ⟨rfl, hmem, hdead⟩)
          · exact Or.inl hbd
          · rcases List.mem_cons.mp hmem with rfl | hmem'
            · exact absurd hdead hd
            · exact Or.inr ⟨rfl, hmem', hdead⟩

theorem findBoundaryInNonDefBlock_edges (interesting : Nat → Nat → Bool)
    (bit : Nat) (instsRev : List Nat) :
    ∀ bd : Boundary,
      (findBoundaryInNonDefBlock instsRev interesting bit bd).boundaryEdges =
        bd.boundaryEdges := by
  induction instsRev with
  | nil => intro bd; rfl
  | cons i rest ih =>
      intro bd
      unfold findBoundaryInNonDefBlock
      by_cases h : interesting i bit = true
      · rw [if_pos h]; rfl
      · rw [if_neg h]; exact ih bd

theorem findBoundaryInSSADefBlock_edges (defIsInst : Bool) (defNode : Nat)
    (interesting : Nat → Nat → Bool) (bit : Nat) (instsRev : List Nat) :
    ∀ bd : Boundary,
      (findBoundaryInSSADefBlock instsRev defIsInst defNode interesting bit
        bd).boundaryEdges = bd.boundaryEdges := by
  induction instsRev with
  | nil => intro bd; rfl
  | cons i rest ih =>
      intro bd
      unfold findBoundaryInSSADefBlock
      by_cases h1 : defIsInst = true ∧ i = defNode
      · rw [if_pos h1]; rfl
      · rw [if_neg h1]
        by_cases h2 : interesting i bit = true
        · rw [if_pos h2]; rfl
        · rw [if_neg h2]; exact ih bd

/-- The SSA variant's `findBoundariesInBlock` never records boundary edges. -/
theorem ssaFindBoundariesInBlock_edges (ctx : SSALiveRange) (block : Block)
    (bit : Nat) (isLiveOut : Bool) (bd : Boundary) :
    (ssaFindBoundariesInBlock ctx block bit isLiveOut bd).boundaryEdges =
      bd.boundaryEdges := by
  unfold ssaFindBoundariesInBlock
  cases isLiveOut
  · by_cases h : ctx.isDefBlock block bit = false
    · simp only [Bool.false_eq_true, if_false, h, if_true]
      exact findBoundaryInNonDefBlock_edges _ _ _ bd
    · simp only [Bool.false_eq_true, if_false, h, if_false]
      exact findBoundaryInSSADefBlock_edges _ _ _ _ _ bd
  · rfl

theorem bitFold_edges (succs : Block → List Block)
    (liveness : Block → Nat → IsLive)
    (findFn : Block → Nat → Bool → Boundary → Boundary) (block : Block)
    (hpres : ∀ (b' : Block) (bit : Nat) (lo : Bool) (bd : Boundary),
      (findFn b' bit lo bd).boundaryEdges = bd.boundaryEdges)
    (bl : List Nat) :
    ∀ (bd : Boundary) (s : Block) (i : Nat),
      ((bl.foldl (bitStep succs liveness findFn block) bd).boundaryEdges s i = true) ↔
        (bd.boundaryEdges s i = true ∨
          (i ∈ bl ∧ liveness block i = IsLive.LiveOut ∧ s ∈ succs block ∧
            liveness s i = IsLive.Dead)) := by
  induction bl with
  | nil => intro bd s i; simp
  | cons b0 rest ih =>
      intro bd s i
      rw [List.foldl_cons, ih (bitStep succs liveness findFn block bd b0) s i]
      have hstep : (bitStep succs liveness findFn block bd b0).boundaryEdges s i = true ↔
          (bd.boundaryEdges s i = true ∨
            (i = b0 ∧ liveness block b0 = IsLive.LiveOut ∧ s ∈ succs block ∧
              liveness s b0 = IsLive.Dead)) := by
        unfold bitStep
        rcases hl : liveness block b0 with _ | _ | _
        · constructor
          · intro h
            exact Or.inl h
          · rintro (h | ⟨_, hlo, _, _⟩)
            · exact h
            · exact absurd hlo (by decide)
        · rw [hpres]
          constructor
          · intro h
            exact Or.inl h
          · rintro (h | ⟨_, hlo, _, _⟩)
            · exact h
            · exact absurd hlo (by decide)
        · rw [hpres, edgeFold_edges liveness b0 (succs block) bd s i]
          constructor
          · rintro (hbd | ⟨rfl, hmem, hdead⟩)
            · exact Or.inl hbd
            · exact Or.inr ⟨rfl, rfl, hmem, hdead⟩
          · rintro (hbd | ⟨rfl, _, hmem, hdead⟩)
            · exact Or.inl hbd
            · exact Or.inr ⟨rfl, hmem, hdead⟩
      rw [hstep]
      constructor
      · rintro ((hbd | ⟨rfl, h1, h2, h3⟩) | ⟨hmem, h1, h2, h3⟩)
        · exact Or.inl hbd
        · exact Or.inr ⟨List.mem_cons_self _ _, h1, h2, h3⟩
        · exact Or.inr ⟨List.mem_cons_of_mem _ hmem, h1, h2, h3⟩
      · rintro (hbd | ⟨hmem, h1, h2, h3⟩)
        · exact Or.inl (Or.inl hbd)
        · rcases List.mem_cons.mp hmem with rfl | hmem'
          · exact Or.inl (Or.inr ⟨rfl, h1, h2, h3⟩)
          · exact Or.inr ⟨hmem', h1, h2, h3⟩

theorem blockFold_edges (succs : Block → List Block)
    (liveness : Block → Nat → IsLive) (numBits : Nat)
    (findFn : Block → Nat → Bool → Boundary → Boundary)
    (hpres : ∀ (b' : Block) (bit : Nat) (lo : Bool) (bd : Boundary),
      (findFn b' bit lo bd).boundaryEdges = bd.boundaryEdges)
    (disc : List Block) :
    ∀ (bd : Boundary) (s : Block) (i : Nat),
      ((computeBoundaryAux succs liveness numBits findFn disc bd).boundaryEdges s i
          = true) ↔
        (bd.boundaryEdges s i = true ∨
          ∃ B ∈ disc, i < numBits ∧ liveness B i = IsLive.LiveOut ∧
            s ∈ succs B ∧ liveness s i = IsLive.Dead) := by
  induction disc with
  | nil => intro bd s i; simp [computeBoundaryAux]
  | cons B bs ih =>
      intro bd s i
      rw [computeBoundaryAux, List.foldl_cons]
      rw [show ∀ b2, List.foldl
          (fun bd block =>
            (List.range numBits).foldl (bitStep succs liveness findFn block) bd) b2 bs =
          computeBoundaryAux succs liveness numBits findFn bs b2 from fun _ => rfl]
      rw [ih _ s i,
        bitFold_edges succs liveness findFn B hpres (List.range numBits) bd s i]
      simp only [List.mem_range]
      constructor
      · rintro ((hbd | ⟨hlt, h1, h2, h3⟩) | ⟨B', hmem, h⟩)
        · exact Or.inl hbd
        · exact Or.inr ⟨B, List.mem_cons_self _ _, hlt, h1, h2, h3⟩
        · exact Or.inr ⟨B', List.mem_cons_of_mem _ hmem, h⟩
      · rintro (hbd | ⟨B', hmem, h⟩)
        · exact Or.inl (Or.inl hbd)
        · rcases List.mem_cons.mp hmem with rfl | hmem'
          · exact Or.inl (Or.inr h)
          · exact Or.inr ⟨B', hmem', h⟩

/-- C2: running `computeBoundary` with the single-definition (SSA) variant on
an initially empty boundary records a boundary edge on (successor, bit)
exactly when some discovered block is `LiveOut` for that (tracked) bit and
the successor is one of its successors with state `Dead` for the bit; and the
SSA variant's `findBoundariesInBlock` invoked with `isLiveOut = true` records
nothing at all (no last user, no dead def, no edge). -/
theorem c2_computeBoundary_ssa_edges (ctx : SSALiveRange)
    (succs : Block → List Block) (liveness : Block → Nat → IsLive)
    (numBits : Nat) (discovered : List Block) (s : Block) (i : Nat) :
    ((computeBoundaryAux succs liveness numBits (ssaFindBoundariesInBlock ctx)
        discovered Boundary.empty).boundaryEdges s i = true ↔
      ∃ B ∈ discovered, i < numBits ∧ liveness B i = IsLive.LiveOut ∧
        s ∈ succs B ∧ liveness s i = IsLive.Dead) ∧
    (∀ (block : Block) (bit : Nat) (bd : Boundary),
      ssaFindBoundariesInBlock ctx block bit true bd = bd) := by
  constructor
  · rw [blockFold_edges succs liveness numBits (ssaFindBoundariesInBlock ctx)
      (fun b' bit lo bd => ssaFindBoundariesInBlock_edges ctx b' bit lo bd)
      discovered Boundary.empty s i]
    simp [Boundary.empty]
  · intro block bit bd
    rfl

/-- C2 witness: in a two-block CFG where discovered block 0 is `LiveOut` for
bit 0 and its successor 1 is `Dead`, the SSA boundary computation records the
edge on block 1 (and on nothing else, e.g. not on block 0). -/
theorem c2_computeBoundary_ssa_edges_witness :
    ((computeBoundaryAux (fun b => if b = 0 then [1] else [])
        (fun b _ => if b = 0 then IsLive.LiveOut else IsLive.Dead) 1
        (ssaFindBoundariesInBlock
          (SSALiveRange.mk (fun _ _ => false) true 0 (fun _ => []) (fun _ _ => false)))
        [0] Boundary.empty).boundaryEdges 1 0 = true ↔
      ∃ B ∈ [0], 0 < 1 ∧
        (fun b _ => if b = 0 then IsLive.LiveOut else IsLive.Dead) B 0 = IsLive.LiveOut ∧
        1 ∈ (fun b => if b = 0 then [1] else []) B ∧
        (fun b _ => if b = 0 then IsLive.LiveOut else IsLive.Dead) 1 0 = IsLive.Dead) ∧
    (∀ (block : Block) (bit : Nat) (bd : Boundary),
      ssaFindBoundariesInBlock
        (SSALiveRange.mk (fun _ _ => false) true 0 (fun _ => []) (fun _ _ => false))
        block bit true bd = bd) :=
  c2_computeBoundary_ssa_edges
    (SSALiveRange.mk (fun _ _ => false) true 0 (fun _ => []) (fun _ _ => false))
    (fun b => if b = 0 then [1] else [])
    (fun b _ => if b = 0 then IsLive.LiveOut else IsLive.Dead) 1 [0] 1 0

/-! ## `FieldSensitiveMultiDefPrunedLiveRange::findBoundariesInBlock` -/

/-- The data of a `FieldSensitiveMultiDefPrunedLiveRange` needed by its
`findBoundariesInBlock`: def-block predicate, number of registered defs,
the single def for the `defs.size() == 1` path, per-identifier def and
interesting-user oracles, the per-block argument and instruction lists,
predecessors and the frozen per-(block, bit) liveness. -/
structure MultiDefLiveRange where
  isDefBlock : Block → Nat → Bool
  numDefs : Nat
  ssaDefIsInst : Bool
  ssaDefNode : Nat
  isDef : Nat → Nat → Bool
  isArgDef : Nat → Nat → Bool
  interesting : Nat → Nat → Bool
  blockArgs : Block → List Nat
  blockInsts : Block → List Nat
  preds : Block → List Block
  liveness : Block → Nat → IsLive

/-- The backward scan of the multiple-defs path (lines 1245-1287), over the
reversed instruction list with the running `isLive` flag.  Per instruction:
a def of the bit records a dead def when the flag is clear and always clears
the flag; then, when the flag is clear, an interesting user is recorded as a
last user and sets the flag. -/
def multiDefScan (ctx : MultiDefLiveRange) (bit : Nat) :
    List Nat → Bool → Boundary → Boundary × Bool
  | [], isLive, bd => (bd, isLive)
  | inst :: rest, isLive, bd =>
      let bd1 := if ctx.isDef inst bit ∧ isLive = false then setDeadDef bd inst bit else bd
      let isLive1 := if ctx.isDef inst bit then false else isLive
      let bd2 := if isLive1 = false ∧ ctx.interesting inst bit then
          setLastUser bd1 inst bit else bd1
      let isLive2 := if isLive1 = false ∧ ctx.interesting inst bit then true else isLive1
      multiDefScan ctx bit rest isLive2 bd2

/-- `FieldSensitiveMultiDefPrunedLiveRange::findBoundariesInBlock` (lines
1190-1326): a non-def block behaves like the SSA non-def case; a def block
with a single registered def takes the SSA def-block path; otherwise the
backward scan runs (seeded with `isLiveOut`), and if the bit is still not
live at the top of the block, block arguments that define the bit become dead
defs and — when the block has predecessors and every predecessor is `LiveOut`
for the bit — the block is marked as a boundary edge. -/
def multiDefFindBoundariesInBlock (ctx : MultiDefLiveRange) (block : Block)
    (bit : Nat) (isLiveOut : Bool) (bd : Boundary) : Boundary :=
  if ctx.isDefBlock block bit = false then
    if isLiveOut then bd
    else findBoundaryInNonDefBlock ((ctx.blockInsts block).reverse)
      ctx.interesting bit bd
  else if ctx.numDefs = 1 then
    if isLiveOut then bd
    else findBoundaryInSSADefBlock ((ctx.blockInsts block).reverse)
      ctx.ssaDefIsInst ctx.ssaDefNode ctx.interesting bit bd
  else
    let scanned := multiDefScan ctx bit ((ctx.blockInsts block).reverse) isLiveOut bd
    if scanned.2 then scanned.1
    else
      let bd2 := (ctx.blockArgs block).foldl
        (fun bd arg => if ctx.isArgDef arg bit then setDeadDef bd arg bit else bd)
        scanned.1
      if ctx.preds block ≠ [] ∧
          ∀ p ∈ ctx.preds block, ctx.liveness p bit = IsLive.LiveOut then
        setBoundaryEdge bd2 block bit
      else bd2

/-- The backward scan itself never touches boundary edges. -/
theorem multiDefScan_edges (ctx : MultiDefLiveRange) (bit : Nat) :
    ∀ (insts : List Nat) (isLive : Bool) (bd : Boundary),
      ((multiDefScan ctx bit insts isLive bd).1).boundaryEdges = bd.boundaryEdges := by
  intro insts
  induction insts with
  | nil => intro isLive bd; rfl
  | cons inst rest ih =>
      intro isLive bd
      rw [multiDefScan]
      rw [ih]
      by_cases h1 : ctx.isDef inst bit = true ∧ isLive = false
      · by_cases h2 :
            (if ctx.isDef inst bit = true then false else isLive) = false ∧
              ctx.interesting inst bit = true
        · rw [if_pos h2, if_pos h1]
          rfl
        · rw [if_neg h2, if_pos h1]
          rfl
      · by_cases h2 :
            (if ctx.isDef inst bit = true then false else isLive) = false ∧
              ctx.interesting inst bit = true
        · rw [if_pos h2, if_neg h1]
          rfl
        · rw [if_neg h2, if_neg h1]

/-- The dead-argument recording fold never touches boundary edges. -/
theorem deadArgFold_edges (ctx : MultiDefLiveRange) (bit : Nat)
    (args : List Nat) :
    ∀ bd : Boundary,
      ((args.foldl
        (fun bd arg => if ctx.isArgDef arg bit then setDeadDef bd arg bit else bd)
        bd)).boundaryEdges = bd.boundaryEdges := by
  induction args with
  | nil => intro bd; rfl
  | cons a rest ih =>
      intro bd
      rw [List.foldl_cons, ih]
      by_cases h : ctx.isArgDef a bit = true
      · rw [if_pos h]
        rfl
      · rw [if_neg h]

/-- C3: in the multiple-defs path, when the backward scan reaches the top of
a def block with the bit not live and the block has at least one predecessor,
the boundary edge for the bit is recorded on the block if and only if every
predecessor of the block is `LiveOut` for the bit. -/
theorem c3_multiDef_entry_edge_unanimity (ctx : MultiDefLiveRange)
    (block : Block) (bit : Nat) (isLiveOut : Bool) (bd : Boundary)
    (hdef : ctx.isDefBlock block bit = true)
    (hmulti : ctx.numDefs ≠ 1)
    (hscan : (multiDefScan ctx bit ((ctx.blockInsts block).reverse) isLiveOut bd).2
      = false)
    (hpred : ctx.preds block ≠ [])
    (hinit : bd.boundaryEdges block bit = false) :
    ((multiDefFindBoundariesInBlock ctx block bit isLiveOut bd).boundaryEdges
        block bit = true ↔
      ∀ p ∈ ctx.preds block, ctx.liveness p bit = IsLive.LiveOut) := by
  unfold multiDefFindBoundariesInBlock
  rw [if_neg (by rw [hdef]; exact fun h => absurd h (by decide))]
  rw [if_neg hmulti]
  simp only [hscan, Bool.false_eq_true, if_false]
  by_cases hall : ∀ p ∈ ctx.preds block, ctx.liveness p bit = IsLive.LiveOut
  · rw [if_pos ⟨hpred, hall⟩]
    constructor
    · intro _
      exact hall
    · intro _
      rw [(setBoundaryEdge_edges _ _ _ _ _).2 (Or.inl ⟨rfl, rfl⟩)]
  · rw [if_neg (fun h => hall h.2)]
    rw [show ((ctx.blockArgs block).foldl
        (fun bd arg => if ctx.isArgDef arg bit then setDeadDef bd arg bit else bd)
        (multiDefScan ctx bit ((ctx.blockInsts block).reverse) isLiveOut bd).1
          ).boundaryEdges = bd.boundaryEdges from
      (deadArgFold_edges ctx bit (ctx.blockArgs block) _).trans
        (multiDefScan_edges ctx bit _ isLiveOut bd)]
    rw [hinit]
    constructor
    · intro h
      exact absurd h (by decide)
    · intro h
      exact absurd h hall

/-- Fixed concrete multi-def range for the C3 witness: a two-def range, block
0 is a def block for bit 0, has no instructions or arguments, and one
predecessor (block 1) that is `LiveOut` everywhere. -/
def mdCtx1 : MultiDefLiveRange :=
  MultiDefLiveRange.mk (fun _ _ => true) 2 false 0 (fun _ _ => false)
    (fun _ _ => false) (fun _ _ => false) (fun _ => []) (fun _ => [])
    (fun _ => [1]) (fun _ _ => IsLive.LiveOut)

/-- C3 witness: on `mdCtx1` (scan of the empty block leaves the bit dead, one
predecessor, unanimously `LiveOut`) the entry edge is recorded. -/
theorem c3_multiDef_entry_edge_unanimity_witness :
    mdCtx1.isDefBlock 0 0 = true ∧ mdCtx1.numDefs ≠ 1 ∧
    (multiDefScan mdCtx1 0 ((mdCtx1.blockInsts 0).reverse) false Boundary.empty).2
      = false ∧
    mdCtx1.preds 0 ≠ [] ∧ Boundary.empty.boundaryEdges 0 0 = false ∧
    ((multiDefFindBoundariesInBlock mdCtx1 0 0 false Boundary.empty).boundaryEdges
        0 0 = true ↔
      ∀ p ∈ mdCtx1.preds 0, mdCtx1.liveness p 0 = IsLive.LiveOut) :=
  ⟨rfl, by decide, rfl, by simp [mdCtx1], rfl,
    c3_multiDef_entry_edge_unanimity mdCtx1 0 0 false Boundary.empty rfl
      (by decide) rfl (by simp [mdCtx1]) rfl⟩

/-! ## `FieldSensitiveMultiDefPrunedLiveRange::findEarlierConsumingUse`

The caller-supplied callback is a pure function; the search result is paired
with the list of instructions the callback was invoked on, in invocation
order, so that "invokes the callback on every lifetime-ending use found along
the way" is statable. -/

/-- The three-valued `IsInterestingUser` classification. -/
inductive UseKind where
  | nonUse : UseKind
  | nonEndingUse : UseKind
  | lifetimeEndingUse : UseKind
deriving DecidableEq

/-- Outcome of scanning one block's instructions backward. -/
inductive ScanOutcome where
  | foundDef : ScanOutcome
  | aborted : ScanOutcome
  | notFound : ScanOutcome
deriving DecidableEq

/-- The data of the live range consumed by `findEarlierConsumingUse`:
per-identifier def oracles, the three-valued user classification, and the
block structure. -/
structure ConsumingSearchRange where
  isDef : Nat → Nat → Bool
  isArgDef : Nat → Nat → Bool
  userKind : Nat → Nat → UseKind
  blockArgs : Block → List Nat
  blockInsts : Block → List Nat
  preds : Block → List Block

/-- The per-instruction backward walk shared by both loops of
`findEarlierConsumingUse` (lines 1339-1363 and 1386-1408): a def of the bit
ends the search successfully; a lifetime-ending use invokes the callback,
aborting on `false`; anything else is skipped.  Returns the outcome and the
callback-invocation trace. -/
def scanInsts (ctx : ConsumingSearchRange) (bit : Nat) (cb : Nat → Bool) :
    List Nat → ScanOutcome × List Nat
  | [] => (ScanOutcome.notFound, [])
  | i :: rest =>
      if ctx.isDef i bit then (ScanOutcome.foundDef, [])
      else if ctx.userKind i bit = UseKind.lifetimeEndingUse then
        if cb i then
          ((scanInsts ctx bit cb rest).1, i :: (scanInsts ctx bit cb rest).2)
        else (ScanOutcome.aborted, [i])
      else scanInsts ctx bit cb rest

/-- One block of the worklist loop (lines 1383-1416): scan the instructions
backward, then check the block arguments for a def of the bit. -/
def scanBlockBack (ctx : ConsumingSearchRange) (bit : Nat) (cb : Nat → Bool)
    (b : Block) : ScanOutcome × List Nat :=
  if (scanInsts ctx bit cb ((ctx.blockInsts b).reverse)).1 = ScanOutcome.notFound then
    (if (ctx.blockArgs b).any (fun a => ctx.isArgDef a bit) then ScanOutcome.foundDef
      else ScanOutcome.notFound,
      (scanInsts ctx bit cb ((ctx.blockInsts b).reverse)).2)
  else scanInsts ctx bit cb ((ctx.blockInsts b).reverse)

/-- `pushIfNotVisited` over a predecessor list: each unvisited predecessor is
appended to the worklist and marked visited. -/
def pushPreds (ps : List Block) (wl visited : List Block) :
    List Block × List Block :=
  ps.foldl
    (fun (acc : List Block × List Block) p =>
      if p ∈ acc.2 then acc else (acc.1 ++ [p], acc.2 ++ [p]))
    (wl, visited)

/-- The worklist loop of `findEarlierConsumingUse` (lines 1383-1423),
fuel-bounded: pop a block, scan it; a def ends the search with `true`, an
aborting callback ends it with `false`, otherwise the block's unvisited
predecessors are pushed and the loop continues (returning `true` when the
worklist empties, as the C++ final `return true`). -/
def bfsLoop (ctx : ConsumingSearchRange) (bit : Nat) (cb : Nat → Bool) :
    Nat → List Block → List Block → Bool × List Nat
  | 0, _, _ => (true, [])
  | _ + 1, [], _ => (true, [])
  | fuel + 1, b :: rest, visited =>
      if (scanBlockBack ctx bit cb b).1 = ScanOutcome.foundDef then
        (true, (scanBlockBack ctx bit cb b).2)
      else if (scanBlockBack ctx bit cb b).1 = ScanOutcome.aborted then
        (false, (scanBlockBack ctx bit cb b).2)
      else
        ((bfsLoop ctx bit cb fuel (pushPreds (ctx.preds b) rest visited).1
            (pushPreds (ctx.preds b) rest visited).2).1,
          (scanBlockBack ctx bit cb b).2 ++
            (bfsLoop ctx bit cb fuel (pushPreds (ctx.preds b) rest visited).1
              (pushPreds (ctx.preds b) rest visited).2).2)

/-- `FieldSensitiveMultiDefPrunedLiveRange::findEarlierConsumingUse` (lines
1328-1426): walk backward from the instruction within its block
(`beforeInsts` holds the instructions strictly before it, innermost first),
then check the block's arguments, then run the worklist over predecessors. -/
def findEarlierConsumingUse (ctx : ConsumingSearchRange) (bit : Nat)
    (cb : Nat → Bool) (startBlock : Block) (beforeInsts : List Nat)
    (fuel : Nat) : Bool × List Nat :=
  if (scanInsts ctx bit cb beforeInsts).1 = ScanOutcome.foundDef then
    (true, (scanInsts ctx bit cb beforeInsts).2)
  else if (scanInsts ctx bit cb beforeInsts).1 = ScanOutcome.aborted then
    (false, (scanInsts ctx bit cb beforeInsts).2)
  else if (ctx.blockArgs startBlock).any (fun a => ctx.isArgDef a bit) then
    (true, (scanInsts ctx bit cb beforeInsts).2)
  else
    ((bfsLoop ctx bit cb fuel (pushPreds (ctx.preds startBlock) [] []).1
        (pushPreds (ctx.preds startBlock) [] []).2).1,
      (scanInsts ctx bit cb beforeInsts).2 ++
        (bfsLoop ctx bit cb fuel (pushPreds (ctx.preds startBlock) [] []).1
          (pushPreds (ctx.preds startBlock) [] []).2).2)

/-- Every callback invocation of the instruction scan is on a lifetime-ending
use, and the scan aborts exactly when some invocation returned `false`. -/
theorem scanInsts_spec (ctx : ConsumingSearchRange) (bit : Nat) (cb : Nat → Bool)
    (insts : List Nat) :
    (∀ i ∈ (scanInsts ctx bit cb insts).2,
      ctx.userKind i bit = UseKind.lifetimeEndingUse) ∧
    ((scanInsts ctx bit cb insts).1 = ScanOutcome.aborted ↔
      ∃ i ∈ (scanInsts ctx bit cb insts).2, cb i = false) := by
  induction insts with
  | nil => exact ⟨by simp [scanInsts], by simp [scanInsts]⟩
  | cons i rest ih =>
      by_cases h1 : ctx.isDef i bit = true
      · constructor
        · intro j hj
          rw [scanInsts, if_pos h1] at hj
          exact absurd hj (by simp)
        · rw [scanInsts, if_pos h1]
          simp
      · by_cases h2 : ctx.userKind i bit = UseKind.lifetimeEndingUse
        · by_cases h3 : cb i = true
          · constructor
            · intro j hj
              rw [scanInsts, if_neg h1, if_pos h2, if_pos h3] at hj
              rcases List.mem_cons.mp hj with rfl | hj'
              · exact h2
              · exact ih.1 j hj'
            · rw [scanInsts, if_neg h1, if_pos h2, if_pos h3]
              rw [show ((scanInsts ctx bit cb rest).1,
                  i :: (scanInsts ctx bit cb rest).2).1 =
                (scanInsts ctx bit cb rest).1 from rfl]
              rw [ih.2]
              constructor
              · rintro ⟨j, hj, hjf⟩
                exact ⟨j, List.mem_cons_of_mem _ hj, hjf⟩
              · rintro ⟨j, hj, hjf⟩
                rcases List.mem_cons.mp hj with rfl | hj'
                · rw [h3] at hjf
                  exact absurd hjf (by decide)
                · exact ⟨j, hj', hjf⟩
          · constructor
            · intro j hj
              rw [scanInsts, if_neg h1, if_pos h2, if_neg h3] at hj
              rcases List.mem_cons.mp hj with rfl | hj'
              · exact h2
              · exact absurd hj' (by simp)
            · rw [scanInsts, if_neg h1, if_pos h2, if_neg h3]
              simp only [Bool.not_eq_true] at h3
              constructor
              · intro _
                exact ⟨i, List.mem_cons_self _ _, h3⟩
              · intro _
                rfl
        · constructor
          · intro j hj
            rw [scanInsts, if_neg h1, if_neg h2] at hj
            exact ih.1 j hj
          · rw [scanInsts, if_neg h1, if_neg h2]
            exact ih.2

/-- `scanBlockBack` preserves the trace and the two scan properties. -/
theorem scanBlockBack_spec (ctx : ConsumingSearchRange) (bit : Nat)
    (cb : Nat → Bool) (b : Block) :
    (∀ i ∈ (scanBlockBack ctx bit cb b).2,
      ctx.userKind i bit = UseKind.lifetimeEndingUse) ∧
    ((scanBlockBack ctx bit cb b).1 = ScanOutcome.aborted ↔
      ∃ i ∈ (scanBlockBack ctx bit cb b).2, cb i = false) := by
  unfold scanBlockBack
  by_cases h : (scanInsts ctx bit cb ((ctx.blockInsts b).reverse)).1 =
      ScanOutcome.notFound
  · rw [if_pos h]
    refine ⟨(scanInsts_spec ctx bit cb _).1, ?_⟩
    rw [show (∃ i ∈ (scanInsts ctx bit cb ((ctx.blockInsts b).reverse)).2,
        cb i = false) ↔ (scanInsts ctx bit cb ((ctx.blockInsts b).reverse)).1 =
          ScanOutcome.aborted from Iff.symm (scanInsts_spec ctx bit cb _).2]
    rw [h]
    by_cases h2 : (ctx.blockArgs b).any (fun a => ctx.isArgDef a bit) = true
    · rw [if_pos h2]
      simp
    · rw [if_neg h2]
  · rw [if_neg h]
    exact ⟨(scanInsts_spec ctx bit cb _).1, (scanInsts_spec ctx bit cb _).2⟩

/-- The worklist loop's two search properties. -/
theorem bfsLoop_spec (ctx : ConsumingSearchRange) (bit : Nat) (cb : Nat → Bool) :
    ∀ (fuel : Nat) (wl visited : List Block),
      (∀ i ∈ (bfsLoop ctx bit cb fuel wl visited).2,
        ctx.userKind i bit = UseKind.lifetimeEndingUse) ∧
      ((bfsLoop ctx bit cb fuel wl visited).1 = false ↔
        ∃ i ∈ (bfsLoop ctx bit cb fuel wl visited).2, cb i = false) := by
  intro fuel
  induction fuel with
  | zero =>
      intro wl visited
      exact ⟨by simp [bfsLoop], by simp [bfsLoop]⟩
  | succ fuel ih =>
      intro wl visited
      cases wl with
      | nil => exact ⟨by simp [bfsLoop], by simp [bfsLoop]⟩
      | cons b rest =>
          rw [bfsLoop]
          by_cases h1 : (scanBlockBack ctx bit cb b).1 = ScanOutcome.foundDef
          · rw [if_pos h1]
            refine ⟨(scanBlockBack_spec ctx bit cb b).1, ?_⟩
            constructor
            · intro hx
              simp at hx
            · rintro hx
              have := (scanBlockBack_spec ctx bit cb b).2.mpr hx
              rw [h1] at this
              exact absurd this (by decide)
          · rw [if_neg h1]
            by_cases h2 : (scanBlockBack ctx bit cb b).1 = ScanOutcome.aborted
            · rw [if_pos h2]
              refine ⟨(scanBlockBack_spec ctx bit cb b).1, ?_⟩
              constructor
              · intro _
                exact (scanBlockBack_spec ctx bit cb b).2.mp h2
              · intro _
                rfl
            · rw [if_neg h2]
              constructor
              · intro i hi
                rcases List.mem_append.mp hi with hi' | hi'
                · exact (scanBlockBack_spec ctx bit cb b).1 i hi'
                · exact (ih _ _).1 i hi'
              · rw [show ((bfsLoop ctx bit cb fuel
                    (pushPreds (ctx.preds b) rest visited).1
                    (pushPreds (ctx.preds b) rest visited).2).1,
                    (scanBlockBack ctx bit cb b).2 ++
                      (bfsLoop ctx bit cb fuel
                        (pushPreds (ctx.preds b) rest visited).1
                        (pushPreds (ctx.preds b) rest visited).2).2).1 =
                  (bfsLoop ctx bit cb fuel
                    (pushPreds (ctx.preds b) rest visited).1
                    (pushPreds (ctx.preds b) rest visited).2).1 from rfl]
                rw [(ih _ _).2]
                constructor
                · rintro ⟨j, hj, hjf⟩
                  exact ⟨j, List.mem_append_right _ hj, hjf⟩
                · rintro ⟨j, hj, hjf⟩
                  rcases List.mem_append.mp hj with hj' | hj'
                  · exfalso
                    have := (scanBlockBack_spec ctx bit cb b).2.mpr ⟨j, hj', hjf⟩
                    exact h2 this
                  · exact ⟨j, hj', hjf⟩

/-- The whole search invokes the callback only on lifetime-ending uses of the
bit, returns `false` exactly when some invocation returned `false`, and stops
at a definition found on the initial backward walk. -/
theorem findEarlierConsumingUse_trace_spec (ctx : ConsumingSearchRange) (bit : Nat)
    (cb : Nat → Bool) (startBlock : Block) (beforeInsts : List Nat) (fuel : Nat) :
    (∀ i ∈ (findEarlierConsumingUse ctx bit cb startBlock beforeInsts fuel).2,
      ctx.userKind i bit = UseKind.lifetimeEndingUse) ∧
    ((findEarlierConsumingUse ctx bit cb startBlock beforeInsts fuel).1 = false ↔
      ∃ i ∈ (findEarlierConsumingUse ctx bit cb startBlock beforeInsts fuel).2,
        cb i = false) ∧
    ((scanInsts ctx bit cb beforeInsts).1 = ScanOutcome.foundDef →
      findEarlierConsumingUse ctx bit cb startBlock beforeInsts fuel =
        (true, (scanInsts ctx bit cb beforeInsts).2)) := by
  unfold findEarlierConsumingUse
  by_cases h1 : (scanInsts ctx bit cb beforeInsts).1 = ScanOutcome.foundDef
  · rw [if_pos h1]
    refine ⟨(scanInsts_spec ctx bit cb beforeInsts).1, ?_, fun _ => rfl⟩
    constructor
    · intro hx
      simp at hx
    · rintro hx
      have := (scanInsts_spec ctx bit cb beforeInsts).2.mpr hx
      rw [h1] at this
      exact absurd this (by decide)
  · rw [if_neg h1]
    refine ⟨?_, ?_, fun hx => absurd hx h1⟩
    · by_cases h2 : (scanInsts ctx bit cb beforeInsts).1 = ScanOutcome.aborted
      · rw [if_pos h2]
        exact (scanInsts_spec ctx bit cb beforeInsts).1
      · rw [if_neg h2]
        by_cases h3 : (ctx.blockArgs startBlock).any (fun a => ctx.isArgDef a bit)
            = true
        · rw [if_pos h3]
          exact (scanInsts_spec ctx bit cb beforeInsts).1
        · rw [if_neg h3]
          intro i hi
          rcases List.mem_append.mp hi with hi' | hi'
          · exact (scanInsts_spec ctx bit cb beforeInsts).1 i hi'
          · exact (bfsLoop_spec ctx bit cb fuel _ _).1 i hi'
    · by_cases h2 : (scanInsts ctx bit cb beforeInsts).1 = ScanOutcome.aborted
      · rw [if_pos h2]
        constructor
        · intro _
          exact (scanInsts_spec ctx bit cb beforeInsts).2.mp h2
        · intro _
          rfl
      · rw [if_neg h2]
        by_cases h3 : (ctx.blockArgs startBlock).any (fun a => ctx.isArgDef a bit)
            = true
        · rw [if_pos h3]
          constructor
          · intro hx
            simp at hx
          · rintro hx
            have := (scanInsts_spec ctx bit cb beforeInsts).2.mpr hx
            exact absurd this h2
        · rw [if_neg h3]
          rw [show ((bfsLoop ctx bit cb fuel
              (pushPreds (ctx.preds startBlock) [] []).1
              (pushPreds (ctx.preds startBlock) [] []).2).1,
              (scanInsts ctx bit cb beforeInsts).2 ++
                (bfsLoop ctx bit cb fuel
                  (pushPreds (ctx.preds startBlock) [] []).1
                  (pushPreds (ctx.preds startBlock) [] []).2).2).1 =
            (bfsLoop ctx bit cb fuel
              (pushPreds (ctx.preds startBlock) [] []).1
              (pushPreds (ctx.preds startBlock) [] []).2).1 from rfl]
          rw [(bfsLoop_spec ctx bit cb fuel _ _).2]
          constructor
          · rintro ⟨j, hj, hjf⟩
            exact ⟨j, List.mem_append_right _ hj, hjf⟩
          · rintro ⟨j, hj, hjf⟩
            rcases List.mem_append.mp hj with hj' | hj'
            · exfalso
              exact h2 ((scanInsts_spec ctx bit cb beforeInsts).2.mpr ⟨j, hj', hjf⟩)
            · exact ⟨j, hj', hjf⟩

/-- The lifetime-ending uses of the bit among a list of instructions, in
order: exactly the instructions on which the search must invoke the
callback when it scans that list. -/
def lifetimeUsesIn (ctx : ConsumingSearchRange) (bit : Nat) (l : List Nat) : List Nat :=
  l.filter (fun i => decide (ctx.userKind i bit = UseKind.lifetimeEndingUse))

/-- Completeness of the backward walk, no-def case: when the scanned list
contains no definition of the bit and the callback approves every
lifetime-ending use in it, the walk scans the whole list and invokes the
callback on exactly the lifetime-ending uses, in order. -/
theorem scanInsts_notFound_full (ctx : ConsumingSearchRange) (bit : Nat)
    (cb : Nat → Bool) :
    ∀ l : List Nat, (∀ i ∈ l, ctx.isDef i bit = false) →
      (∀ i ∈ l, ctx.userKind i bit = UseKind.lifetimeEndingUse → cb i = true) →
      scanInsts ctx bit cb l = (ScanOutcome.notFound, lifetimeUsesIn ctx bit l) := by
  intro l
  induction l with
  | nil => intro _ _; rfl
  | cons i rest ih =>
      intro h1 h2
      have hdef : ctx.isDef i bit = false := h1 i (List.mem_cons_self _ _)
      rw [scanInsts, if_neg (by simp [hdef])]
      by_cases hk : ctx.userKind i bit = UseKind.lifetimeEndingUse
      · rw [if_pos hk, if_pos (h2 i (List.mem_cons_self _ _) hk)]
        rw [ih (fun j hj => h1 j (List.mem_cons_of_mem _ hj))
          (fun j hj => h2 j (List.mem_cons_of_mem _ hj))]
        unfold lifetimeUsesIn
        rw [List.filter_cons]
        simp [hk]
      · rw [if_neg hk]
        rw [ih (fun j hj => h1 j (List.mem_cons_of_mem _ hj))
          (fun j hj => h2 j (List.mem_cons_of_mem _ hj))]
        unfold lifetimeUsesIn
        rw [List.filter_cons]
        simp [hk]

/-- Completeness of the backward walk, definition case: the walk stops at the
first definition of the bit and, before stopping, invokes the callback on
exactly the lifetime-ending uses preceding it (whatever lies beyond the
definition is never consulted). -/
theorem scanInsts_foundDef_at (ctx : ConsumingSearchRange) (bit : Nat)
    (cb : Nat → Bool) :
    ∀ (pre : List Nat) (d : Nat) (post : List Nat),
      (∀ i ∈ pre, ctx.isDef i bit = false) →
      (∀ i ∈ pre, ctx.userKind i bit = UseKind.lifetimeEndingUse → cb i = true) →
      ctx.isDef d bit = true →
      scanInsts ctx bit cb (pre ++ d :: post) =
        (ScanOutcome.foundDef, lifetimeUsesIn ctx bit pre) := by
  intro pre
  induction pre with
  | nil =>
      intro d post _ _ hd
      rw [List.nil_append, scanInsts, if_pos hd]
      rfl
  | cons i pre' ih =>
      intro d post h1 h2 hd
      have hdef : ctx.isDef i bit = false := h1 i (List.mem_cons_self _ _)
      rw [List.cons_append, scanInsts, if_neg (by simp [hdef])]
      by_cases hk : ctx.userKind i bit = UseKind.lifetimeEndingUse
      · rw [if_pos hk, if_pos (h2 i (List.mem_cons_self _ _) hk)]
        rw [ih d post (fun j hj => h1 j (List.mem_cons_of_mem _ hj))
          (fun j hj => h2 j (List.mem_cons_of_mem _ hj)) hd]
        unfold lifetimeUsesIn
        rw [List.filter_cons]
        simp [hk]
      · rw [if_neg hk]
        rw [ih d post (fun j hj => h1 j (List.mem_cons_of_mem _ hj))
          (fun j hj => h2 j (List.mem_cons_of_mem _ hj)) hd]
        unfold lifetimeUsesIn
        rw [List.filter_cons]
        simp [hk]

/-- Completeness of the backward walk, abort case: the walk invokes the
callback on exactly the lifetime-ending uses up to and including the first
one the callback rejects, and aborts there. -/
theorem scanInsts_aborted_at (ctx : ConsumingSearchRange) (bit : Nat)
    (cb : Nat → Bool) :
    ∀ (pre : List Nat) (u : Nat) (post : List Nat),
      (∀ i ∈ pre, ctx.isDef i bit = false) →
      (∀ i ∈ pre, ctx.userKind i bit = UseKind.lifetimeEndingUse → cb i = true) →
      ctx.isDef u bit = false →
      ctx.userKind u bit = UseKind.lifetimeEndingUse → cb u = false →
      scanInsts ctx bit cb (pre ++ u :: post) =
        (ScanOutcome.aborted, lifetimeUsesIn ctx bit pre ++ [u]) := by
  intro pre
  induction pre with
  | nil =>
      intro u post _ _ hdu hku hcbu
      rw [List.nil_append, scanInsts, if_neg (by simp [hdu]), if_pos hku,
        if_neg (by simp [hcbu])]
      rfl
  | cons i pre' ih =>
      intro u post h1 h2 hdu hku hcbu
      have hdef : ctx.isDef i bit = false := h1 i (List.mem_cons_self _ _)
      rw [List.cons_append, scanInsts, if_neg (by simp [hdef])]
      by_cases hk : ctx.userKind i bit = UseKind.lifetimeEndingUse
      · rw [if_pos hk, if_pos (h2 i (List.mem_cons_self _ _) hk)]
        rw [ih u post (fun j hj => h1 j (List.mem_cons_of_mem _ hj))
          (fun j hj => h2 j (List.mem_cons_of_mem _ hj)) hdu hku hcbu]
        unfold lifetimeUsesIn
        rw [List.filter_cons]
        simp [hk]
      · rw [if_neg hk]
        rw [ih u post (fun j hj => h1 j (List.mem_cons_of_mem _ hj))
          (fun j hj => h2 j (List.mem_cons_of_mem _ hj)) hdu hku hcbu]
        unfold lifetimeUsesIn
        rw [List.filter_cons]
        simp [hk]

/-- A block scan's callback trace is exactly its instruction walk's trace
(the argument check after the walk invokes no callback). -/
theorem scanBlockBack_trace (ctx : ConsumingSearchRange) (bit : Nat)
    (cb : Nat → Bool) (b : Block) :
    (scanBlockBack ctx bit cb b).2 =
      (scanInsts ctx bit cb ((ctx.blockInsts b).reverse)).2 := by
  unfold scanBlockBack
  by_cases h : (scanInsts ctx bit cb ((ctx.blockInsts b).reverse)).1 =
      ScanOutcome.notFound
  · rw [if_pos h]
  · rw [if_neg h]

/-- A block-argument definition of the bit, checked after the instruction
walk finds nothing, also ends the search successfully. -/
theorem scanBlockBack_argDef (ctx : ConsumingSearchRange) (bit : Nat)
    (cb : Nat → Bool) (b : Block)
    (h : (scanInsts ctx bit cb ((ctx.blockInsts b).reverse)).1 =
      ScanOutcome.notFound)
    (ha : (ctx.blockArgs b).any (fun a => ctx.isArgDef a bit) = true) :
    scanBlockBack ctx bit cb b =
      (ScanOutcome.foundDef, (scanInsts ctx bit cb ((ctx.blockInsts b).reverse)).2) := by
  unfold scanBlockBack
  rw [if_pos h, if_pos ha]

/-- A definition found while scanning a popped worklist block ends the whole
search immediately: the loop returns `true` with exactly the invocations made
up to that definition; no further block is consulted. -/
theorem bfsLoop_step_foundDef (ctx : ConsumingSearchRange) (bit : Nat)
    (cb : Nat → Bool) (f : Nat) (b : Block) (rest visited : List Block)
    (h : (scanBlockBack ctx bit cb b).1 = ScanOutcome.foundDef) :
    bfsLoop ctx bit cb (f + 1) (b :: rest) visited =
      (true, (scanBlockBack ctx bit cb b).2) := by
  rw [bfsLoop, if_pos h]

/-- A rejected callback in a popped worklist block ends the whole search
immediately with `false`. -/
theorem bfsLoop_step_aborted (ctx : ConsumingSearchRange) (bit : Nat)
    (cb : Nat → Bool) (f : Nat) (b : Block) (rest visited : List Block)
    (h : (scanBlockBack ctx bit cb b).1 = ScanOutcome.aborted) :
    bfsLoop ctx bit cb (f + 1) (b :: rest) visited =
      (false, (scanBlockBack ctx bit cb b).2) := by
  rw [bfsLoop, if_neg (by rw [h]; decide), if_pos h]

/-- A popped worklist block with no definition and no rejected callback
contributes its full invocation trace, and the search continues with the
block's unvisited predecessors appended to the worklist (breadth first). -/
theorem bfsLoop_step_notFound (ctx : ConsumingSearchRange) (bit : Nat)
    (cb : Nat → Bool) (f : Nat) (b : Block) (rest visited : List Block)
    (h : (scanBlockBack ctx bit cb b).1 = ScanOutcome.notFound) :
    bfsLoop ctx bit cb (f + 1) (b :: rest) visited =
      ((bfsLoop ctx bit cb f (pushPreds (ctx.preds b) rest visited).1
          (pushPreds (ctx.preds b) rest visited).2).1,
        (scanBlockBack ctx bit cb b).2 ++
          (bfsLoop ctx bit cb f (pushPreds (ctx.preds b) rest visited).1
            (pushPreds (ctx.preds b) rest visited).2).2) := by
  rw [bfsLoop, if_neg (by rw [h]; decide), if_neg (by rw [h]; decide)]

/-- C9: the search walks backward through the instruction's block and then
block by block through predecessors (breadth-first worklist).  It invokes the
callback on exactly the lifetime-ending uses of the bit encountered along the
way: each backward walk's trace is precisely the ordered list of
lifetime-ending uses of the scanned prefix — the whole list when no
definition or rejection stops it, the uses strictly before the first
definition when one is found, the uses up to and including the first rejected
one when the callback aborts — and every fully scanned worklist block
prepends its full trace before the search continues with its unvisited
predecessors.  A definition ends the search with `true` immediately wherever
it is found: on the initial walk, at a popped predecessor block's
instruction, or at a block argument.  The search returns `false` exactly when
some callback invocation returned `false`. -/
theorem c9_findEarlierConsumingUse_search (ctx : ConsumingSearchRange)
    (bit : Nat) (cb : Nat → Bool) (startBlock : Block) (beforeInsts : List Nat)
    (fuel : Nat) :
    (∀ i ∈ (findEarlierConsumingUse ctx bit cb startBlock beforeInsts fuel).2,
      ctx.userKind i bit = UseKind.lifetimeEndingUse) ∧
    ((findEarlierConsumingUse ctx bit cb startBlock beforeInsts fuel).1 = false ↔
      ∃ i ∈ (findEarlierConsumingUse ctx bit cb startBlock beforeInsts fuel).2,
        cb i = false) ∧
    (∀ l : List Nat, (∀ i ∈ l, ctx.isDef i bit = false) →
      (∀ i ∈ l, ctx.userKind i bit = UseKind.lifetimeEndingUse → cb i = true) →
      scanInsts ctx bit cb l = (ScanOutcome.notFound, lifetimeUsesIn ctx bit l)) ∧
    (∀ (pre : List Nat) (d : Nat) (post : List Nat),
      (∀ i ∈ pre, ctx.isDef i bit = false) →
      (∀ i ∈ pre, ctx.userKind i bit = UseKind.lifetimeEndingUse → cb i = true) →
      ctx.isDef d bit = true →
      scanInsts ctx bit cb (pre ++ d :: post) =
        (ScanOutcome.foundDef, lifetimeUsesIn ctx bit pre)) ∧
    (∀ (pre : List Nat) (u : Nat) (post : List Nat),
      (∀ i ∈ pre, ctx.isDef i bit = false) →
      (∀ i ∈ pre, ctx.userKind i bit = UseKind.lifetimeEndingUse → cb i = true) →
      ctx.isDef u bit = false →
      ctx.userKind u bit = UseKind.lifetimeEndingUse → cb u = false →
      scanInsts ctx bit cb (pre ++ u :: post) =
        (ScanOutcome.aborted, lifetimeUsesIn ctx bit pre ++ [u])) ∧
    ((scanInsts ctx bit cb beforeInsts).1 = ScanOutcome.foundDef →
      findEarlierConsumingUse ctx bit cb startBlock beforeInsts fuel =
        (true, (scanInsts ctx bit cb beforeInsts).2)) ∧
    (∀ (f : Nat) (b : Block) (rest visited : List Block),
      (scanBlockBack ctx bit cb b).1 = ScanOutcome.foundDef →
      bfsLoop ctx bit cb (f + 1) (b :: rest) visited =
        (true, (scanBlockBack ctx bit cb b).2)) ∧
    (∀ (f : Nat) (b : Block) (rest visited : List Block),
      (scanBlockBack ctx bit cb b).1 = ScanOutcome.aborted →
      bfsLoop ctx bit cb (f + 1) (b :: rest) visited =
        (false, (scanBlockBack ctx bit cb b).2)) ∧
    (∀ (f : Nat) (b : Block) (rest visited : List Block),
      (scanBlockBack ctx bit cb b).1 = ScanOutcome.notFound →
      bfsLoop ctx bit cb (f + 1) (b :: rest) visited =
        ((bfsLoop ctx bit cb f (pushPreds (ctx.preds b) rest visited).1
            (pushPreds (ctx.preds b) rest visited).2).1,
          (scanBlockBack ctx bit cb b).2 ++
            (bfsLoop ctx bit cb f (pushPreds (ctx.preds b) rest visited).1
              (pushPreds (ctx.preds b) rest visited).2).2)) ∧
    (∀ b : Block,
      (scanInsts ctx bit cb ((ctx.blockInsts b).reverse)).1 =
        ScanOutcome.notFound →
      (ctx.blockArgs b).any (fun a => ctx.isArgDef a bit) = true →
      scanBlockBack ctx bit cb b =
        (ScanOutcome.foundDef,
          (scanInsts ctx bit cb ((ctx.blockInsts b).reverse)).2)) ∧
    (∀ b : Block, (scanBlockBack ctx bit cb b).2 =
      (scanInsts ctx bit cb ((ctx.blockInsts b).reverse)).2) :=
  ⟨(findEarlierConsumingUse_trace_spec ctx bit cb startBlock beforeInsts fuel).1,
   (findEarlierConsumingUse_trace_spec ctx bit cb startBlock beforeInsts fuel).2.1,
   scanInsts_notFound_full ctx bit cb,
   scanInsts_foundDef_at ctx bit cb,
   scanInsts_aborted_at ctx bit cb,
   (findEarlierConsumingUse_trace_spec ctx bit cb startBlock beforeInsts fuel).2.2,
   fun f b rest visited h => bfsLoop_step_foundDef ctx bit cb f b rest visited h,
   fun f b rest visited h => bfsLoop_step_aborted ctx bit cb f b rest visited h,
   fun f b rest visited h => bfsLoop_step_notFound ctx bit cb f b rest visited h,
   fun b h ha => scanBlockBack_argDef ctx bit cb b h ha,
   fun b => scanBlockBack_trace ctx bit cb b⟩

/-- Fixed concrete search range for the C9 witness: instruction 3 defines bit
0 and instruction 4 is a lifetime-ending use of it; block 1 holds `[3, 4]` in
program order and is the predecessor of block 0; no block arguments. -/
def csCtx2 : ConsumingSearchRange :=
  ConsumingSearchRange.mk (fun i _ => i == 3) (fun _ _ => false)
    (fun i _ => if i == 4 then UseKind.lifetimeEndingUse else UseKind.nonUse)
    (fun _ => []) (fun b => if b == 1 then [3, 4] else [])
    (fun b => if b == 0 then [1] else [])

/-- C9 witness: searching back from the start of block 0 walks into
predecessor block 1, invokes the callback on the lifetime-ending use 4, stops
at the definition 3 found there, and returns `true` with trace `[4]`; the
backward-walk characterization and the returns-false criterion evaluate
accordingly on this input. -/
theorem c9_findEarlierConsumingUse_search_witness :
    (∀ i ∈ [4], csCtx2.isDef i 0 = false) ∧
    (∀ i ∈ [4], csCtx2.userKind i 0 = UseKind.lifetimeEndingUse →
      (fun _ => true) i = true) ∧
    csCtx2.isDef 3 0 = true ∧
    scanInsts csCtx2 0 (fun _ => true) ([4] ++ 3 :: []) =
      (ScanOutcome.foundDef, lifetimeUsesIn csCtx2 0 [4]) ∧
    (scanBlockBack csCtx2 0 (fun _ => true) 1).1 = ScanOutcome.foundDef ∧
    bfsLoop csCtx2 0 (fun _ => true) 1 [1] [1] =
      (true, (scanBlockBack csCtx2 0 (fun _ => true) 1).2) ∧
    findEarlierConsumingUse csCtx2 0 (fun _ => true) 0 [] 1 = (true, [4]) ∧
    ((findEarlierConsumingUse csCtx2 0 (fun _ => true) 0 [] 1).1 = false ↔
      ∃ i ∈ (findEarlierConsumingUse csCtx2 0 (fun _ => true) 0 [] 1).2,
        (fun _ => true) i = false) :=
  ⟨by decide, by decide, rfl,
   (c9_findEarlierConsumingUse_search csCtx2 0 (fun _ => true) 0 [] 1).2.2.2.1
     [4] 3 [] (by decide) (by decide) rfl,
   by decide,
   (c9_findEarlierConsumingUse_search csCtx2 0 (fun _ => true) 0 [] 1).2.2.2.2.2.2.1
     0 1 [] [1] (by decide),
   by decide,
   (c9_findEarlierConsumingUse_search csCtx2 0 (fun _ => true) 0 [] 1).2.1⟩
end FSPL
